import Mathlib

/-!
Verification development for `wind-web-crawler.py`, a single-file web crawler
with six frontier-traversal strategies, a politeness layer (`polite_get`), a
toy quantum sampler (`quantum_choice`), and an orchestration loop (`crawl`).

The Python source is embedded shallowly:

* the quantum simulator works with exact arithmetic in ℚ(√2) (every amplitude
  the Hadamard-only circuit produces lies in that field); the float draw of
  `random.random()` is an explicit rational parameter;
* `urllib.parse` (CPython 3.11 semantics: `urlsplit`, `urlunsplit`,
  `urlparse`, `urldefrag`, params splitting, WHATWG cleaning) is embedded
  over `List Char`; the two checks that delegate to external libraries
  (`ipaddress` bracketed-host validation, the NFKC netloc check of
  `_checknetloc`) are abstracted as boolean parameters bundled in `UParams`;
* `polite_get` and the relevant behaviour of `urllib.robotparser`
  (`read`/`can_fetch`) become an explicit state-passing function over a
  governor state; the network is an explicit environment;
* the `crawl` loop becomes a fuel-indexed transition function; the
  strategy-specific index selection of `Frontier.pop` is abstracted as an
  arbitrary picker so that theorems quantify over every strategy and every
  randomness, while `push_many` and the cluster updates are kept verbatim.
-/

namespace WindCrawler

/-! ## Exact arithmetic in the ring ℤ[√2, 1/2]

`Q2 a b k` represents the real number `(a + b·√2) / 2^k`.  Every float the
Hadamard-only circuit manipulates is such a number (the only irrational
constant is `1/√2 = √2/2`), so the simulator is embedded exactly.  The
representation avoids rational normalisation on purpose: all operations are
integer arithmetic and therefore fully computable. -/

structure Q2 where
  a : ℤ
  b : ℤ
  k : ℕ
deriving DecidableEq, Repr

def Q2.zero : Q2 := ⟨0, 0, 0⟩

def Q2.one : Q2 := ⟨1, 0, 0⟩

def Q2.add (x y : Q2) : Q2 :=
  ⟨x.a * 2 ^ y.k + y.a * 2 ^ x.k, x.b * 2 ^ y.k + y.b * 2 ^ x.k, x.k + y.k⟩

def Q2.mul (x y : Q2) : Q2 :=
  ⟨x.a * y.a + 2 * x.b * y.b, x.a * y.b + x.b * y.a, x.k + y.k⟩

def Q2.neg (x : Q2) : Q2 := ⟨-x.a, -x.b, x.k⟩

/-- `1 / math.sqrt(2)`, exactly: `√2 / 2`. -/
def invSqrt2 : Q2 := ⟨0, 1, 1⟩

/-- The real number `x` is at most the real number `y`: with `p + q·√2` the
difference scaled by the (positive) common denominator, decide
`0 ≤ p + q·√2` by sign analysis and squaring — pure integer arithmetic. -/
def Q2.leB (x y : Q2) : Bool :=
  let p := y.a * 2 ^ x.k - x.a * 2 ^ y.k
  let q := y.b * 2 ^ x.k - x.b * 2 ^ y.k
  if 0 ≤ p then (if 0 ≤ q then true else decide (2 * q ^ 2 ≤ p ^ 2))
  else (if 0 ≤ q then decide (p ^ 2 ≤ 2 * q ^ 2) else false)

/-! ## Complex amplitudes over ℚ(√2)

The Python state vector holds `complex` values (`state = [0j] * dim`);
gate entries are real floats. -/

structure Amp where
  re : Q2
  im : Q2
deriving DecidableEq, Repr

def Amp.zero : Amp := ⟨Q2.zero, Q2.zero⟩

def Amp.one : Amp := ⟨Q2.one, Q2.zero⟩

def Amp.add (x y : Amp) : Amp := ⟨x.re.add y.re, x.im.add y.im⟩

/-- A real gate entry times a complex amplitude: `g[i][j] * state[j]`. -/
def Amp.smul (g : Q2) (x : Amp) : Amp := ⟨g.mul x.re, g.mul x.im⟩

/-- `abs(amp) ** 2` (squared modulus). -/
def Amp.normSq (x : Amp) : Q2 := (x.re.mul x.re).add (x.im.mul x.im)

/-! ## The tiny quantum simulator (`H`, `kron`, `nqubit_gate`, `apply`,
`measure`, `quantum_choice`) -/

abbrev Mat := List (List Q2)

/-- `H = [[1/√2, 1/√2], [1/√2, -1/√2]]`. -/
def Hmat : Mat := [[invSqrt2, invSqrt2], [invSqrt2, invSqrt2.neg]]

/-- `kron(a, b)`, with the exact comprehension order of the source:
rows iterate `row_a` outer / `row_b` inner, columns iterate `bj` outer /
`ai` inner. -/
def kron (a b : Mat) : Mat :=
  a.flatMap fun rowA => b.map fun rowB => rowB.flatMap fun bj => rowA.map fun ai => ai.mul bj

def id2 : Mat := [[Q2.one, Q2.zero], [Q2.zero, Q2.one]]

def id1 : Mat := [[Q2.one]]

/-- `nqubit_gate(single, target, n)`: fold over `range(n - 1, -1, -1)`. -/
def nqubitGate (single : Mat) (target n : ℕ) : Mat :=
  (List.range n).reverse.foldl
    (fun g q => if q ≠ target then kron g id2 else kron g id1) single

/-- `apply(g, state)`: for each `i < len(state)`,
`sum(g[i][j] * state[j] for j in range(len(state)))`; out-of-range entries
read as zero (the program only pairs a `2^q × 2^q` gate with a `2^q` state). -/
def applyGate (g : Mat) (state : List Amp) : List Amp :=
  (List.range state.length).map fun i =>
    (List.range state.length).foldl
      (fun acc j => acc.add (Amp.smul ((g.getD i []).getD j Q2.zero) (state.getD j Amp.zero)))
      Amp.zero

/-- The accumulation loop of `measure`: squared magnitudes are summed in
order and the first index with `r <= acc` is returned.  The draw
`r = random.random()` is an explicit parameter (an exact real in ℤ[√2,1/2]). -/
def measureAux (r : Q2) : Q2 → ℕ → List Amp → Option ℕ
  | _, _, [] => none
  | acc, i, amp :: rest =>
    let acc' := acc.add amp.normSq
    if Q2.leB r acc' then some i else measureAux r acc' (i + 1) rest

/-- `measure(state)` with the draw `r = random.random()` made explicit.
The fallback returns `len(state) - 1` as a Python integer (hence `-1` on an
empty state). -/
def measure (r : Q2) (state : List Amp) : ℤ :=
  match measureAux r Q2.zero 0 state with
  | some i => (i : ℤ)
  | none => (state.length : ℤ) - 1

/-- Helper for `ceilLog2`: halve (rounding up) until at most 1, counting
steps; the first argument is structural fuel (`m` halvings always suffice). -/
def clog2Aux : ℕ → ℕ → ℕ
  | 0, _ => 0
  | fuel + 1, m => if m ≤ 1 then 0 else clog2Aux fuel ((m + 1) / 2) + 1

/-- `math.ceil(math.log2(m))` for `m ≥ 1` (exact, by structural recursion). -/
def ceilLog2 (m : ℕ) : ℕ := clog2Aux m m

/-- The register built by `quantum_choice` before measuring:
`q = ceil(log2(max(2, n)))` qubits, `dim = 2 ** q`, basis state `|0…0⟩`,
one Hadamard applied per qubit. -/
def qcState (n : ℕ) : List Amp :=
  let q := ceilLog2 (max 2 n)
  let dim := 2 ^ q
  let state0 := (List.range dim).map fun k => if k = 0 then Amp.one else Amp.zero
  (List.range q).foldl (fun st qubit => applyGate (nqubitGate Hmat qubit q) st) state0

/-- The `idx = measure(state); while idx >= n: idx = measure(state)` loop;
one entry of `rs` is consumed per `measure` call, `none` when the supplied
draws run out before an index below `n` appears. -/
def qcLoop (n : ℕ) (state : List Amp) : List Q2 → Option ℤ
  | [] => none
  | r :: rs =>
    let idx := measure r state
    if (n : ℤ) ≤ idx then qcLoop n state rs else some idx

/-- Python list indexing `items[i]`, including negative indices. -/
def pyIndex (items : List α) (i : ℤ) : Option α :=
  if 0 ≤ i then items.get? i.toNat
  else if (-i).toNat ≤ items.length then items.get? (items.length - (-i).toNat)
  else none

/-- `quantum_choice(items)` under an explicit stream of random draws. -/
def quantumChoice (items : List α) (rs : List Q2) : Option α :=
  (qcLoop items.length (qcState items.length) rs).bind (pyIndex items)

/-! ## `urllib.parse` (CPython 3.11) over `List Char`

The crawler's `canon` delegates to `urldefrag`, `urlparse` and `geturl`
(= `urlunparse`).  These are embedded faithfully from CPython 3.11's
`urllib/parse.py`: WHATWG cleaning, scheme detection, `_splitnetloc`,
fragment/query splitting, params splitting, `urlunsplit`'s netloc branch
with `uses_netloc`, and the `ValueError`s (modelled as `none`).
`Char.toLower` models `str.lower`; the two coincide on ASCII, and the
theorems below use only that lower-casing is idempotent and preserves the
delimiter structure. -/

/-- Leading WHATWG C0-control-or-space characters (codes `0x00`–`0x20`). -/
def isC0Space (c : Char) : Bool := decide (c.toNat ≤ 32)

/-- `_UNSAFE_URL_BYTES_TO_REMOVE`. -/
def isUnsafe (c : Char) : Bool := c == '\t' || c == '\r' || c == '\n'

/-- `url.lstrip(_WHATWG_C0_CONTROL_OR_SPACE)` followed by removal of every
tab, carriage return and newline, as done at the top of `urlsplit`. -/
def cleanUrl (u : List Char) : List Char :=
  (u.dropWhile isC0Space).filter (fun c => !isUnsafe c)

/-- `scheme_chars`: ASCII letters, digits, `+`, `-`, `.`. -/
def isSchemeChar (c : Char) : Bool := c.isAlpha || c.isDigit || c == '+' || c == '-' || c == '.'

/-- `url.split(c, 1)` for a character known to occur; the pair is
(before first `c`, after first `c`). -/
def splitOnce (c : Char) (l : List Char) : List Char × List Char :=
  (l.takeWhile (fun x => !(x == c)), (l.dropWhile (fun x => !(x == c))).drop 1)

/-- A character that ends the netloc (`/`, `?` or `#`). -/
def isNetlocEnd (c : Char) : Bool := c == '/' || c == '?' || c == '#'

/-- `_splitnetloc(url, 2)` applied to `url[2:]`: the netloc runs to the first
of `/?#`. -/
def splitNetloc (l : List Char) : List Char × List Char :=
  (l.takeWhile (fun c => !isNetlocEnd c), l.dropWhile (fun c => !isNetlocEnd c))

/-- Scheme detection of `urlsplit`: the text before the first `:` is taken as
the scheme (and lower-cased) when that prefix is non-empty, starts with an
ASCII letter and consists of scheme characters only; otherwise the url is
left whole. -/
def splitScheme (url : List Char) : List Char × List Char :=
  let pre := url.takeWhile (fun x => !(x == ':'))
  if url.contains ':' ∧ pre ≠ [] ∧ (url.headD ' ').isAlpha ∧ pre.all isSchemeChar then
    (pre.map Char.toLower, (url.dropWhile (fun x => !(x == ':'))).drop 1)
  else ([], url)

/-- External checks of `urlsplit` that are delegated to other modules:
`bhostOk` models `_check_bracketed_host` (which calls `ipaddress`), and
`nfkcOk` models the non-ASCII branch of `_checknetloc` (which calls
`unicodedata.normalize`).  `true` means "no `ValueError`". -/
structure UParams where
  bhostOk : List Char → Bool
  nfkcOk : List Char → Bool

/-- `netloc.partition('[')[2].partition(']')[0]`. -/
def bracketPart (n : List Char) : List Char :=
  ((n.dropWhile (fun c => !(c == '['))).drop 1).takeWhile (fun c => !(c == ']'))

/-- `_checknetloc(netloc)`: trivially fine when empty or all-ASCII,
otherwise delegated to the NFKC check. -/
def checkNetloc (P : UParams) (n : List Char) : Bool :=
  if n = [] || n.all (fun c => decide (c.toNat ≤ 127)) then true else P.nfkcOk n

structure SplitR where
  scheme : List Char
  netloc : List Char
  path : List Char
  query : List Char
  frag : List Char
deriving DecidableEq, Repr

/-- The fragment/query splits and final netloc check shared by both branches
of `urlsplit` (fragments always allowed, as in every use in the crawler). -/
def finishSplit (P : UParams) (scheme netloc rest : List Char) : Option SplitR :=
  let fr := if rest.contains '#' then splitOnce '#' rest else (rest, [])
  let pq := if fr.1.contains '?' then splitOnce '?' fr.1 else (fr.1, [])
  if checkNetloc P netloc then some ⟨scheme, netloc, pq.1, pq.2, fr.2⟩ else none

/-- `urlsplit(url)` (CPython 3.11, `allow_fragments=True`); `none` models a
raised `ValueError`. -/
def pyUrlsplit (P : UParams) (url0 : List Char) : Option SplitR :=
  let url1 := cleanUrl url0
  let sp := splitScheme url1
  if sp.2.take 2 = ['/', '/'] then
    let nl := splitNetloc (sp.2.drop 2)
    if (nl.1.contains '[' && !(nl.1.contains ']')) ||
       (nl.1.contains ']' && !(nl.1.contains '[')) then none
    else if nl.1.contains '[' && nl.1.contains ']' && !(P.bhostOk (bracketPart nl.1)) then none
    else finishSplit P sp.1 nl.1 nl.2
  else finishSplit P sp.1 [] sp.2

/-- `uses_params` (schemes whose path gets a params split in `urlparse`). -/
def usesParams : List (List Char) :=
  [[], "ftp".toList, "hdl".toList, "prospero".toList, "http".toList, "imap".toList,
   "https".toList, "shttp".toList, "rtsp".toList, "rtsps".toList, "rtspu".toList,
   "sip".toList, "sips".toList, "mms".toList, "sftp".toList, "tel".toList]

/-- `uses_netloc` (schemes for which `urlunsplit` re-introduces `//`). -/
def usesNetloc : List (List Char) :=
  [[], "ftp".toList, "http".toList, "gopher".toList, "nntp".toList, "telnet".toList,
   "imap".toList, "wais".toList, "file".toList, "mms".toList, "https".toList,
   "shttp".toList, "snews".toList, "prospero".toList, "rtsp".toList, "rtsps".toList,
   "rtspu".toList, "rsync".toList, "svn".toList, "svn+ssh".toList, "sftp".toList,
   "nfs".toList, "git".toList, "git+ssh".toList, "ws".toList, "wss".toList]

/-- The final path segment: what follows the last `/` (`p[p.rfind('/')+1:]`). -/
def afterLastSlash (p : List Char) : List Char :=
  (p.reverse.takeWhile (fun c => !(c == '/'))).reverse

/-- Everything up to and including the last `/`. -/
def beforeLastSlash (p : List Char) : List Char :=
  (p.reverse.dropWhile (fun c => !(c == '/'))).reverse

/-- `_splitparams(url)`: `i = url.find(';', url.rfind('/'))`.  The search
starts at the last `/`, which is itself never a `;`, so when a `/` is
present the cut is at the first `;` of the final segment; without a `/` it
is at the first `;` overall (`urlparse` only calls this with a `;`
present). -/
def splitParams (p : List Char) : List Char × List Char :=
  if p.contains '/' then
    let tl := afterLastSlash p
    if tl.contains ';' then
      (beforeLastSlash p ++ tl.takeWhile (fun c => !(c == ';')),
       (tl.dropWhile (fun c => !(c == ';'))).drop 1)
    else (p, [])
  else
    if p.contains ';' then
      (p.takeWhile (fun c => !(c == ';')), (p.dropWhile (fun c => !(c == ';'))).drop 1)
    else (p, [])

structure ParseR where
  scheme : List Char
  netloc : List Char
  path : List Char
  params : List Char
  query : List Char
  frag : List Char
deriving DecidableEq, Repr

/-- `urlparse(url)`: `urlsplit` plus the params split (only for
`uses_params` schemes with a `;` in the path). -/
def pyUrlparse (P : UParams) (u : List Char) : Option ParseR :=
  (pyUrlsplit P u).map fun r =>
    if usesParams.contains r.scheme ∧ r.path.contains ';' then
      let sp := splitParams r.path
      ⟨r.scheme, r.netloc, sp.1, sp.2, r.query, r.frag⟩
    else ⟨r.scheme, r.netloc, r.path, [], r.query, r.frag⟩

/-- `urlunsplit(components)` (CPython 3.11): `//` is emitted when the netloc
is non-empty or when the scheme is a `uses_netloc` scheme and the path does
not already start with `//`. -/
def pyUrlunsplit (r : SplitR) : List Char :=
  let u1 :=
    if r.netloc ≠ [] ∨ (r.scheme ≠ [] ∧ usesNetloc.contains r.scheme ∧ r.path.take 2 ≠ ['/', '/'])
    then
      let p := if r.path ≠ [] ∧ r.path.take 1 ≠ ['/'] then '/' :: r.path else r.path
      '/' :: '/' :: (r.netloc ++ p)
    else r.path
  let u2 := if r.scheme ≠ [] then r.scheme ++ ':' :: u1 else u1
  let u3 := if r.query ≠ [] then u2 ++ '?' :: r.query else u2
  if r.frag ≠ [] then u3 ++ '#' :: r.frag else u3

/-- `urlunparse(components)`: re-join path and params, then `urlunsplit`. -/
def pyUrlunparse (r : ParseR) : List Char :=
  let pp := if r.params ≠ [] then r.path ++ ';' :: r.params else r.path
  pyUrlunsplit ⟨r.scheme, r.netloc, pp, r.query, r.frag⟩

/-- `urldefrag(url)[0]`: parse and re-assemble without the fragment when a
`#` occurs, otherwise the string is untouched. -/
def defragged (P : UParams) (u : List Char) : Option (List Char) :=
  if u.contains '#' then
    (pyUrlparse P u).map fun r => pyUrlunparse ⟨r.scheme, r.netloc, r.path, r.params, r.query, []⟩
  else some u

/-- `canon(url)` of the crawler: defragment, parse, lower-case scheme and
netloc, re-assemble. -/
def canonL (P : UParams) (u : List Char) : Option (List Char) :=
  (defragged P u).bind fun d =>
    (pyUrlparse P d).map fun r =>
      pyUrlunparse ⟨r.scheme.map Char.toLower, r.netloc.map Char.toLower,
                    r.path, r.params, r.query, r.frag⟩

/-- `canon` on `String`s. -/
def canon (P : UParams) (s : String) : Option String :=
  (canonL P s.toList).map List.asString

/-- The parse stage inside `canon` (components of the defragmented url). -/
def canonParse (P : UParams) (u : List Char) : Option ParseR :=
  (defragged P u).bind (pyUrlparse P)

/-- `true` when `canon`'s re-assembly cannot collapse path into netloc:
the parsed netloc is non-empty or the parsed path does not start with `//`.
(When it is `false`, `urlunsplit` emits the path right after `scheme:` and a
second parse reads its `//`-prefixed text as a netloc.) -/
def noCollapseB (P : UParams) (u : List Char) : Bool :=
  match canonParse P u with
  | some r => !(r.netloc == [] && r.path.take 2 == ['/', '/'])
  | none => true

/-! ## The politeness layer: `urllib.robotparser` and `polite_get`

`RobotFileParser` state relevant to the crawler: `disallow_all`,
`allow_all`, and whether `last_checked` was ever set (`parse()` calls
`modified()`; a `read()` that raises or ends in an `HTTPError` never does).
The user-agent/rule matching tail of `can_fetch` (entries, `quote`/
`unquote`) is abstracted as a function field `verdict`; every claim below is
decided before that tail is consulted. -/

structure RFP where
  disallowAll : Bool
  allowAll : Bool
  lastChecked : Bool
  verdict : String → String → Bool

/-- `RobotFileParser.can_fetch(useragent, url)`: the four-stage decision of
CPython's `robotparser` (deny-all flag, allow-all flag, the
"never read" guard that answers `False`, then rule matching). -/
def canFetch (rp : RFP) (ua url : String) : Bool :=
  if rp.disallowAll then false
  else if rp.allowAll then true
  else if !rp.lastChecked then false
  else rp.verdict ua url

/-- Outcome of the robots.txt retrieval attempted by `rp.read()`. -/
inductive RobotsFetchOutcome where
  | ok (verdict : String → String → Bool)
  | httpErr (code : ℕ)
  | raised

/-- The `RobotFileParser` the crawler ends up caching for a host:
`read()` success parses the body (setting `last_checked`); an `HTTPError`
sets `disallow_all` for 401/403 and `allow_all` for other 4xx; any raised
exception lands in the crawler's `except` clause, which merely re-assigns
`rp.disallow_all = False`. -/
def buildRobots : RobotsFetchOutcome → RFP
  | .ok verdict => ⟨false, false, true, verdict⟩
  | .httpErr code =>
    if code = 401 ∨ code = 403 then ⟨true, false, false, fun _ _ => true⟩
    else if 400 ≤ code ∧ code < 500 then ⟨false, true, false, fun _ _ => true⟩
    else ⟨false, false, false, fun _ _ => true⟩
  | .raised => ⟨false, false, false, fun _ _ => true⟩

/-- The crawler's user-agent string `UA`. -/
def UA : String :=
  "PhysicsCrawler/2.2 (+https://github.com/yourrepo; polite crawler; email you@example.com)"

/-- `MAX_BYTES_PER_HOST`. -/
def MAX_BYTES_PER_HOST : ℕ := 1000000

/-- `THROTTLE` (seconds between requests to one host); the sleep it controls
has no observable effect on the governor state. -/
def THROTTLE : ℚ := 1

/-- Result of `sess.get(url, timeout=..., headers=...)` in the environment:
a timeout, another transport error, or a response with status code, content
byte length, text and content type. -/
inductive PageOutcome where
  | timeout
  | netErr
  | resp (status : ℕ) (contentLen : ℕ) (text ctype : String)
deriving DecidableEq

/-- The external world consumed by one `polite_get` call: what reading
robots.txt for a host does, what fetching a url returns, and the
`time.time()` recorded after a completed fetch. -/
structure FetchEnv where
  robotsOutcome : String → RobotsFetchOutcome
  pageResult : String → PageOutcome
  fetchTime : ℚ

/-- The mutable dictionaries threaded through `polite_get`:
`host_last` (`defaultdict(float)`), `host_bytes` (`defaultdict(int)`),
`robots` (plain dict). -/
structure GovState where
  hostLast : String → ℚ
  hostBytes : String → ℕ
  robots : String → Option RFP

/-- Ways a `polite_get` call can fail: `ValueError` escaping `urlparse`,
`PermissionError("robots.txt")`, `requests` timeouts and transport errors,
`HTTPError` from `raise_for_status`, `MemoryError("byte cap")`. -/
inductive GovError where
  | valueError
  | robotsDisallowed
  | timeoutErr
  | httpStatusError (status : ℕ)
  | quotaExceeded
  | netError
deriving DecidableEq, Repr

/-- A `polite_get` call's observable effect: its outcome, the updated
dictionaries, and whether a network page fetch was issued. -/
structure GovResult where
  outcome : Except GovError (String × String)
  state : GovState
  didFetch : Bool

/-- The rules used for `host`: the cached entry if present, otherwise the
parser freshly built from reading robots.txt. -/
def resolveRobots (env : FetchEnv) (st : GovState) (host : String) : RFP :=
  match st.robots host with
  | some rp => rp
  | none => buildRobots (env.robotsOutcome host)

/-- `polite_get(sess, url, host_last, host_bytes, robots)`.  The quota bound
is a parameter (`MAX_BYTES_PER_HOST` in the source).  Control flow of the
source, in order: host extraction, robots cache fill, `can_fetch` gate,
throttle sleep (no state effect), network fetch, `raise_for_status` (4xx/5xx
raise), `host_last` update, byte accounting, quota check. -/
def politeGet (P : UParams) (maxBytes : ℕ) (env : FetchEnv) (st : GovState) (url : String) :
    GovResult :=
  match pyUrlsplit P url.toList with
  | none => ⟨.error .valueError, st, false⟩
  | some sp =>
    let host := sp.netloc.asString
    let rp := resolveRobots env st host
    let st1 : GovState := { st with robots := fun h => if h = host then some rp else st.robots h }
    if !(canFetch rp UA url) then ⟨.error .robotsDisallowed, st1, false⟩
    else
      match env.pageResult url with
      | .timeout => ⟨.error .timeoutErr, st1, true⟩
      | .netErr => ⟨.error .netError, st1, true⟩
      | .resp status len text ctype =>
        if 400 ≤ status ∧ status < 600 then ⟨.error (.httpStatusError status), st1, true⟩
        else
          let newBytes := st1.hostBytes host + len
          let st2 : GovState :=
            { st1 with
              hostLast := fun h => if h = host then env.fetchTime else st1.hostLast h,
              hostBytes := fun h => if h = host then newBytes else st1.hostBytes h }
          if maxBytes < newBytes then ⟨.error .quotaExceeded, st2, true⟩
          else ⟨.ok (text, ctype), st2, true⟩

/-! ## Frontier `push_many` and the `crawl` loop

`Frontier.pop`'s strategy-specific index choice (randomized for
`brownian`/`levy`/`wind`, momentum-driven for `ballistic`, `0` for `dla`,
quantum-sampled for `quantum`) is abstracted as a `picker` normalised into
range; theorems about the loop hold for every picker and hence for every
strategy and every randomness.  `push_many`, the visited check, the
output/enqueue/cluster updates of `crawl` are kept verbatim.  `attempts`
and `enq` are ghost logs (every url handed to `polite_get`, every url ever
placed into the queue). -/

/-- `needle` is a prefix of `hay`. -/
def startsWithL : List Char → List Char → Bool
  | [], _ => true
  | _ :: _, [] => false
  | x :: xs, y :: ys => x == y && startsWithL xs ys

/-- `needle` occurs somewhere in `hay` (Python's `needle in hay`). -/
def containsL (needle : List Char) : List Char → Bool
  | [] => startsWithL needle []
  | c :: rest => startsWithL needle (c :: rest) || containsL needle rest

/-- `"text/html" in ctype`. -/
def hasSubstr (hay needle : String) : Bool := containsL needle.toList hay.toList

/-- One output CSV row: `[url, kw, desc, title]`. -/
structure Row where
  url : String
  kw : String
  desc : String
  title : String
deriving DecidableEq, Repr

/-- `Frontier.push_many(links)`: append each link, except that the `dla`
strategy silently drops links already in `cluster`. -/
def pushMany (strategy : String) (cluster : List String) (queue : List String)
    (links : List String) : List String :=
  links.foldl (fun q u => if strategy = "dla" ∧ u ∈ cluster then q else q ++ [u]) queue

/-- The links `push_many` actually admits (ghost companion of `pushMany`). -/
def pushKept (strategy : String) (cluster : List String) (links : List String) : List String :=
  links.filter (fun u => !decide (strategy = "dla" ∧ u ∈ cluster))

/-- The whole crawl session's fixed data: strategy, page budget, quota,
environment, the external HTML collaborators (`extract_links`,
`scrape_meta` as functions of the fetched text), and the abstracted
index picker of `Frontier.pop`. -/
structure CrawlCtx where
  P : UParams
  strategy : String
  maxPages : ℕ
  maxBytes : ℕ
  env : FetchEnv
  links : String → String → List String
  meta : String → String × String × String
  picker : List String → ℕ

/-- The orchestrator's full state. -/
structure CrawlState where
  queue : List String
  cluster : List String
  visited : List String
  gov : GovState
  output : List Row
  attempts : List String
  enq : List String

/-- One iteration of the `while` body of `crawl`: pop, visited check,
`polite_get`, and on HTML success the row emission, link push and (for
`dla`) cluster insertion. -/
def crawlStep (ctx : CrawlCtx) (st : CrawlState) : CrawlState :=
  if st.queue = [] then st
  else
    let idx := ctx.picker st.queue % st.queue.length
    let url := st.queue.getD idx ""
    let queue1 := st.queue.eraseIdx idx
    if url ∈ st.visited then { st with queue := queue1 }
    else
      let res := politeGet ctx.P ctx.maxBytes ctx.env st.gov url
      let st1 : CrawlState :=
        { st with queue := queue1, gov := res.state, attempts := st.attempts ++ [url] }
      match res.outcome with
      | .error _ => st1
      | .ok (html, ctype) =>
        let visited1 := url :: st1.visited
        if hasSubstr ctype "text/html" then
          let m := ctx.meta html
          let newLinks := (ctx.links html url).filter (fun u => decide (¬ u ∈ visited1))
          { st1 with
            visited := visited1,
            output := st1.output ++ [⟨url, m.1, m.2.1, m.2.2⟩],
            queue := pushMany ctx.strategy st1.cluster st1.queue newLinks,
            enq := st1.enq ++ pushKept ctx.strategy st1.cluster newLinks,
            cluster := if ctx.strategy = "dla" then st1.cluster.insert url else st1.cluster }
        else { st1 with visited := visited1 }

/-- The `while frontier.queue and len(visited) < max_pages` loop, indexed by
fuel (each iteration consumes one unit; the loop itself terminates because
the queue shrinks whenever the visited set stops growing). -/
def crawlSteps (ctx : CrawlCtx) : ℕ → CrawlState → CrawlState
  | 0, st => st
  | fuel + 1, st =>
    if st.queue = [] ∨ ctx.maxPages ≤ st.visited.length then st
    else crawlSteps ctx fuel (crawlStep ctx st)

/-- `crawl`'s initialisation: `Frontier(strategy, seeds[0])` (queue and
cluster seeded with the first seed) followed by `push_many(seeds[1:])`,
empty visited set, fresh defaultdicts, no output. -/
def crawlInit (ctx : CrawlCtx) (seed : String) (rest : List String) : CrawlState :=
  let queue0 := pushMany ctx.strategy [seed] [seed] rest
  { queue := queue0, cluster := [seed], visited := [],
    gov := ⟨fun _ => 0, fun _ => 0, fun _ => none⟩,
    output := [], attempts := [], enq := queue0 }

/-- A whole session: initialise from the seed list and run the loop. -/
def crawlRun (ctx : CrawlCtx) (seed : String) (rest : List String) (fuel : ℕ) : CrawlState :=
  crawlSteps ctx fuel (crawlInit ctx seed rest)

/-! ## Derived notions used by the canonicalization theorems -/

/-- The path transform `canon` effectively applies: split params (guarded as
in `urlparse`) and re-join them (as in `urlunparse`). -/
def pfold (s p : List Char) : List Char :=
  if usesParams.contains s ∧ p.contains ';' then
    let sp := splitParams p
    if sp.2 ≠ [] then sp.1 ++ ';' :: sp.2 else sp.1
  else p

/-- The `/` that `urlunsplit` may prepend to the path before emitting `//`. -/
def slashIns (s n p : List Char) : List Char :=
  if (n ≠ [] ∨ (s ≠ [] ∧ usesNetloc.contains s ∧ p.take 2 ≠ ['/', '/'])) ∧
     (p ≠ [] ∧ p.take 1 ≠ ['/']) then '/' :: p else p

/-- The `?query` suffix `urlunsplit` appends. -/
def qSuff (q : List Char) : List Char := if q ≠ [] then '?' :: q else []

/-! ## Concrete instances for the scenario theorems -/

/-- Trivial external checks (bracketed hosts and NFKC always fine). -/
def P0 : UParams := ⟨fun _ => true, fun _ => true⟩

/-- Fresh governor state: empty robots cache, zeroed defaultdicts. -/
def st0 : GovState := ⟨fun _ => 0, fun _ => 0, fun _ => none⟩

/-- Environment whose robots allow everything and whose pages answer 404;
the post-fetch clock reads 5. -/
def env404 : FetchEnv := ⟨fun _ => .ok (fun _ _ => true), fun _ => .resp 404 0 "" "", 5⟩

/-- Environment serving a 150-byte 2xx HTML page everywhere. -/
def env200 : FetchEnv := ⟨fun _ => .ok (fun _ _ => true), fun _ => .resp 200 150 "body" "text/html", 5⟩

/-- Environment serving a 50-byte 2xx HTML page everywhere. -/
def env50 : FetchEnv := ⟨fun _ => .ok (fun _ _ => true), fun _ => .resp 200 50 "x" "text/html", 5⟩

/-- Environment whose robots.txt read raises (URLError etc.). -/
def envRaised : FetchEnv := ⟨fun _ => .raised, fun _ => .resp 200 1 "" "", 5⟩

/-- Environment whose robots.txt read ends in HTTP 403. -/
def env403 : FetchEnv := ⟨fun _ => .httpErr 403, fun _ => .resp 200 1 "" "", 5⟩

/-- Governor state of a host `h` that has already exceeded the byte quota,
with an all-allowing robots entry cached. -/
def stOver : GovState :=
  ⟨fun _ => 0, fun h => if h = "h" then MAX_BYTES_PER_HOST + 1 else 0,
   fun _ => some ⟨false, false, true, fun _ _ => true⟩⟩

/-- Environment for the re-attempt scenario: page `http://h/b` is a 2xx HTML
page, everything else times out. -/
def env9 : FetchEnv :=
  ⟨fun _ => .ok (fun _ _ => true),
   fun u => if u = "http://h/b" then .resp 200 10 "B" "text/html" else .timeout, 1⟩

/-- Session context for the re-attempt scenario: `dla` strategy (pop index
`0`, exactly as in the source), page `b`'s only link is `a`. -/
def ctx9 : CrawlCtx :=
  { P := P0, strategy := "dla", maxPages := 10, maxBytes := MAX_BYTES_PER_HOST, env := env9,
    links := fun html _ => if html = "B" then ["http://h/a"] else [],
    meta := fun _ => ("", "", ""), picker := fun _ => 0 }

/-! # Theorems -/

/-! ## C10: totality and range of `measure`, membership for `quantum_choice` -/

theorem measureAux_lt {r : Q2} :
    ∀ {acc : Q2} {i : ℕ} {l : List Amp} {j : ℕ},
      measureAux r acc i l = some j → j < i + l.length := by
  intro acc i l
  induction l generalizing acc i with
  | nil => intro j h; simp [measureAux] at h
  | cons a t ih =>
    intro j h
    rw [measureAux] at h
    split at h
    · cases h
      simp
    · have := ih h
      simp only [List.length_cons]
      omega

theorem measure_lt {r : Q2} {state : List Amp} (h : state ≠ []) :
    0 ≤ measure r state ∧ measure r state < state.length := by
  have hlen : 0 < state.length := List.length_pos.mpr h
  rcases he : measureAux r Q2.zero 0 state with _ | j
  · simp only [measure, he]
    omega
  · have hj := measureAux_lt he
    simp only [measure, he]
    omega

theorem pyIndex_mem {items : List α} {i : ℤ} {x : α} (h : pyIndex items i = some x) :
    x ∈ items := by
  rw [pyIndex] at h
  split at h
  · exact List.get?_mem h
  · split at h
    · exact List.get?_mem h
    · cases h

/-- C10: the Born-rule `measure` is total and in-range — on every non-empty
amplitude vector it returns an index `i` with `0 ≤ i < len(state)` (the
final fallback returns the last index) — and `quantum_choice`, whose
rejection loop re-measures indices `≥ n`, only ever returns an element of
its input list. -/
theorem c10_measure_total_quantum_choice_mem :
    (∀ (r : Q2) (state : List Amp), state ≠ [] →
       0 ≤ measure r state ∧ measure r state < state.length) ∧
    (∀ {α : Type} (items : List α) (rs : List Q2) (x : α),
       quantumChoice items rs = some x → x ∈ items) := by
  constructor
  · intro r state h
    exact measure_lt h
  · intro α items rs x h
    rw [quantumChoice] at h
    rcases Option.bind_eq_some.mp h with ⟨i, _, hpi⟩
    exact pyIndex_mem hpi

/-- Witness for C10 at a concrete input: the Hadamard state over one qubit,
draw `1/2`, and the singleton list. -/
theorem c10_witness :
    (0 ≤ measure ⟨1, 0, 1⟩ [Amp.one] ∧ measure ⟨1, 0, 1⟩ [Amp.one] < 1) ∧ "a" ∈ ["a"] :=
  ⟨c10_measure_total_quantum_choice_mem.1 ⟨1, 0, 1⟩ [Amp.one] (by decide),
   c10_measure_total_quantum_choice_mem.2 ["a"] [⟨1, 0, 1⟩] "a" (by decide)⟩

/-! ## C5: a robots denial performs no fetch and leaves timestamp/bytes alone -/

/-- C5: whenever the resolved robots rules deny the url for the crawler's
agent string, `polite_get` fails with `RobotsDisallowed` (PermissionError),
no network page fetch is performed, and `host_last` and `host_bytes` are
unchanged. -/
theorem c5_robots_denied_no_fetch_no_state_change :
    ∀ (P : UParams) (maxBytes : ℕ) (env : FetchEnv) (st : GovState) (url : String) (sp : SplitR),
      pyUrlsplit P url.toList = some sp →
      canFetch (resolveRobots env st sp.netloc.asString) UA url = false →
      (politeGet P maxBytes env st url).outcome = .error .robotsDisallowed ∧
      (politeGet P maxBytes env st url).didFetch = false ∧
      (politeGet P maxBytes env st url).state.hostLast = st.hostLast ∧
      (politeGet P maxBytes env st url).state.hostBytes = st.hostBytes := by
  intro P maxBytes env st url sp hsp hcf
  simp only [politeGet, hsp, hcf]
  exact ⟨rfl, rfl, rfl, rfl⟩

/-- Witness for C5: host `h` whose robots.txt came back 403 (deny-all). -/
theorem c5_witness :
    (politeGet P0 MAX_BYTES_PER_HOST env403 st0 "http://h/x").outcome
        = .error .robotsDisallowed ∧
    (politeGet P0 MAX_BYTES_PER_HOST env403 st0 "http://h/x").didFetch = false ∧
    (politeGet P0 MAX_BYTES_PER_HOST env403 st0 "http://h/x").state.hostLast = st0.hostLast ∧
    (politeGet P0 MAX_BYTES_PER_HOST env403 st0 "http://h/x").state.hostBytes = st0.hostBytes :=
  c5_robots_denied_no_fetch_no_state_change P0 MAX_BYTES_PER_HOST env403 st0 "http://h/x"
    ⟨"http".toList, "h".toList, "/x".toList, [], []⟩ (by decide) (by decide)

/-! ## C1 (corrected): a 4xx/5xx response or a timeout fails but does NOT
update `host_last` — the update sits after `raise_for_status()` -/

/-- Counterexample to C1 as stated: with a fresh host and a 404 response,
`polite_get` fails with the HTTP status error, yet `host_last` for the host
still reads `0.0` — not the attempt time `5`. -/
theorem c1_counterexample :
    (politeGet P0 MAX_BYTES_PER_HOST env404 st0 "http://h/x").outcome
        = .error (.httpStatusError 404) ∧
    (politeGet P0 MAX_BYTES_PER_HOST env404 st0 "http://h/x").state.hostLast "h" = 0 ∧
    (politeGet P0 MAX_BYTES_PER_HOST env404 st0 "http://h/x").state.hostLast "h"
        ≠ env404.fetchTime := by
  refine ⟨by rfl, by rfl, by decide⟩

/-- C1, amended: a timeout or a 4xx/5xx status makes the call fail with
`Timeout` / `HTTPStatusError`, and `host_last` (`lastFetchAt`) is NOT
updated on these failures (the `host_last[host] = time.time()` line runs
only after `raise_for_status()` passes). -/
theorem c1_amended_failure_leaves_timestamp :
    ∀ (P : UParams) (maxBytes : ℕ) (env : FetchEnv) (st : GovState) (url : String) (sp : SplitR),
      pyUrlsplit P url.toList = some sp →
      canFetch (resolveRobots env st sp.netloc.asString) UA url = true →
      ((env.pageResult url = .timeout →
          (politeGet P maxBytes env st url).outcome = .error .timeoutErr ∧
          (politeGet P maxBytes env st url).state.hostLast = st.hostLast) ∧
       (∀ status len text ctype,
          env.pageResult url = .resp status len text ctype → 400 ≤ status → status < 600 →
          (politeGet P maxBytes env st url).outcome = .error (.httpStatusError status) ∧
          (politeGet P maxBytes env st url).state.hostLast = st.hostLast)) := by
  intro P maxBytes env st url sp hsp hcf
  constructor
  · intro hpr
    simp only [politeGet, hsp, hcf, hpr]
    exact ⟨rfl, rfl⟩
  · intro status len text ctype hpr h4 h6
    have hs : (400 ≤ status ∧ status < 600) = True := by simp [h4, h6]
    simp only [politeGet, hsp, hcf, hpr, hs]
    simp only [if_true]
    exact ⟨rfl, rfl⟩

/-- Witness for the amended C1: the concrete 404 environment. -/
theorem c1_witness :
    (politeGet P0 MAX_BYTES_PER_HOST env404 st0 "http://h/x").outcome
        = .error (.httpStatusError 404) ∧
    (politeGet P0 MAX_BYTES_PER_HOST env404 st0 "http://h/x").state.hostLast = st0.hostLast :=
  (c1_amended_failure_leaves_timestamp P0 MAX_BYTES_PER_HOST env404 st0 "http://h/x"
      ⟨"http".toList, "h".toList, "/x".toList, [], []⟩ (by decide) (by decide)).2
    404 0 "" "" (by rfl) (by decide) (by decide)

/-! ## C2 (corrected): a first over-quota fetch already fails (bytes are
counted *before* the quota check raises) -/

/-- Counterexample to C2 as stated: quota `100`, first fetch to the host is
a 150-byte 2xx response.  The claim says this first call succeeds and
returns the body; in the code `host_bytes` is bumped to 150 and
`MemoryError("byte cap")` is raised, so the call FAILS with
`QuotaExceeded`. -/
theorem c2_counterexample :
    (politeGet P0 100 env200 st0 "http://h/x").outcome = .error .quotaExceeded ∧
    (politeGet P0 100 env200 st0 "http://h/x").state.hostBytes "h" = 150 := by
  refine ⟨by rfl, by decide⟩

/-- C2, amended: with quota 100 and a first 150-byte 2xx response, the first
call already fails with `QuotaExceeded` (the transferred bytes still being
counted into `host_bytes`), and every subsequent call to the host whose
network fetch completes with a non-4xx/5xx status also fails with
`QuotaExceeded`. -/
theorem c2_amended_first_overquota_fails :
    ∀ (P : UParams) (env : FetchEnv) (st : GovState) (url : String) (sp : SplitR),
      pyUrlsplit P url.toList = some sp →
      canFetch (resolveRobots env st sp.netloc.asString) UA url = true →
      ∀ status len text ctype,
        env.pageResult url = .resp status len text ctype →
        ¬(400 ≤ status ∧ status < 600) →
        ((st.hostBytes sp.netloc.asString = 0 → len = 150 →
            (politeGet P 100 env st url).outcome = .error .quotaExceeded ∧
            (politeGet P 100 env st url).state.hostBytes sp.netloc.asString = 150) ∧
         (100 < st.hostBytes sp.netloc.asString →
            (politeGet P 100 env st url).outcome = .error .quotaExceeded)) := by
  intro P env st url sp hsp hcf status len text ctype hpr hst
  have h0 : (400 ≤ status ∧ status < 600) = False := by simp [hst]
  constructor
  · intro hz hlen
    have hover : (100 < st.hostBytes sp.netloc.asString + len) = True := by
      simp [hz, hlen]
    simp only [politeGet, hsp, hcf, hpr, h0, hover, if_false, if_true]
    refine ⟨rfl, ?_⟩
    simp [hz, hlen]
  · intro hover
    have h1 : (100 < st.hostBytes sp.netloc.asString + len) = True :=
      eq_true (by omega)
    simp only [politeGet, hsp, hcf, hpr, h0, h1, if_false, if_true]
    rfl

/-- Witness for the amended C2: fresh host, quota 100, 150-byte 2xx page. -/
theorem c2_witness :
    ((politeGet P0 100 env200 st0 "http://h/x").outcome = .error .quotaExceeded ∧
     (politeGet P0 100 env200 st0 "http://h/x").state.hostBytes "h" = 150) :=
  (c2_amended_first_overquota_fails P0 env200 st0 "http://h/x"
      ⟨"http".toList, "h".toList, "/x".toList, [], []⟩ (by decide) (by decide)
      200 150 "body" "text/html" (by rfl) (by decide)).1 (by rfl) (by rfl)

/-! ## C3 (corrected): the tripped quota does keep every later call failing,
but each such call still issues a network fetch and still adds the new
body's bytes -/

/-- Counterexample to C3 as stated: host over quota (`MAX_BYTES_PER_HOST+1`
bytes counted), next call gets a 2xx 50-byte response: it fails with
`QuotaExceeded` as claimed, but `didFetch` is true (a fresh network fetch
happened) and `host_bytes` moved from `MAX_BYTES_PER_HOST+1` to
`MAX_BYTES_PER_HOST+51` — the claim's "without altering bytesFetched via a
new successful response body" is false. -/
theorem c3_counterexample :
    (politeGet P0 MAX_BYTES_PER_HOST env50 stOver "http://h/x").outcome
        = .error .quotaExceeded ∧
    (politeGet P0 MAX_BYTES_PER_HOST env50 stOver "http://h/x").didFetch = true ∧
    (politeGet P0 MAX_BYTES_PER_HOST env50 stOver "http://h/x").state.hostBytes "h"
        = MAX_BYTES_PER_HOST + 51 := by
  refine ⟨by rfl, by rfl, by decide⟩

/-- C3, amended: once `host_bytes[host]` exceeds the quota, no later
`polite_get` for that host can succeed; a later call whose network fetch
completes with a non-4xx/5xx status fails with `QuotaExceeded`, but only
after performing the fetch (`didFetch = true`) and adding the new body's
length to `host_bytes`. -/
theorem c3_amended_quota_stays_tripped :
    ∀ (P : UParams) (maxBytes : ℕ) (env : FetchEnv) (st : GovState) (url : String) (sp : SplitR),
      pyUrlsplit P url.toList = some sp →
      maxBytes < st.hostBytes sp.netloc.asString →
      ((∀ v, (politeGet P maxBytes env st url).outcome ≠ .ok v) ∧
       (canFetch (resolveRobots env st sp.netloc.asString) UA url = true →
        ∀ status len text ctype,
          env.pageResult url = .resp status len text ctype →
          ¬(400 ≤ status ∧ status < 600) →
          (politeGet P maxBytes env st url).outcome = .error .quotaExceeded ∧
          (politeGet P maxBytes env st url).didFetch = true ∧
          (politeGet P maxBytes env st url).state.hostBytes sp.netloc.asString
            = st.hostBytes sp.netloc.asString + len)) := by
  intro P maxBytes env st url sp hsp hover
  have hmain : ∀ (hcf : canFetch (resolveRobots env st sp.netloc.asString) UA url = true)
      (status len : ℕ) (text ctype : String),
      env.pageResult url = .resp status len text ctype →
      ¬(400 ≤ status ∧ status < 600) →
      (politeGet P maxBytes env st url).outcome = .error .quotaExceeded ∧
      (politeGet P maxBytes env st url).didFetch = true ∧
      (politeGet P maxBytes env st url).state.hostBytes sp.netloc.asString
        = st.hostBytes sp.netloc.asString + len := by
    intro hcf status len text ctype hpr hst
    have h0 : (400 ≤ status ∧ status < 600) = False := by simp [hst]
    have h1 : (maxBytes < st.hostBytes sp.netloc.asString + len) = True :=
      eq_true (by omega)
    simp only [politeGet, hsp, hcf, hpr, h0, h1, if_false, if_true]
    refine ⟨rfl, rfl, by simp⟩
  constructor
  · intro v hok
    rcases hcf : canFetch (resolveRobots env st sp.netloc.asString) UA url with _ | _
    · have hx : (politeGet P maxBytes env st url).outcome = .error .robotsDisallowed := by
        simp only [politeGet, hsp, hcf]
        rfl
      rw [hx] at hok
      cases hok
    · rcases hpr : env.pageResult url with _ | _ | ⟨status, len, text, ctype⟩
      · have hx : (politeGet P maxBytes env st url).outcome = .error .timeoutErr := by
          simp only [politeGet, hsp, hcf, hpr]
          rfl
        rw [hx] at hok
        cases hok
      · have hx : (politeGet P maxBytes env st url).outcome = .error .netError := by
          simp only [politeGet, hsp, hcf, hpr]
          rfl
        rw [hx] at hok
        cases hok
      · by_cases hst : 400 ≤ status ∧ status < 600
        · have h0 : (400 ≤ status ∧ status < 600) = True := by simp [hst]
          have hx : (politeGet P maxBytes env st url).outcome
              = .error (.httpStatusError status) := by
            simp only [politeGet, hsp, hcf, hpr, h0, if_true]
            rfl
          rw [hx] at hok
          cases hok
        · have := (hmain hcf status len text ctype hpr hst).1
          rw [this] at hok
          cases hok
  · exact hmain

/-- Witness for the amended C3: the over-quota host and the 50-byte page. -/
theorem c3_witness :
    (politeGet P0 MAX_BYTES_PER_HOST env50 stOver "http://h/x").outcome
        = .error .quotaExceeded ∧
    (politeGet P0 MAX_BYTES_PER_HOST env50 stOver "http://h/x").didFetch = true ∧
    (politeGet P0 MAX_BYTES_PER_HOST env50 stOver "http://h/x").state.hostBytes "h"
        = stOver.hostBytes "h" + 50 :=
  (c3_amended_quota_stays_tripped P0 MAX_BYTES_PER_HOST env50 stOver "http://h/x"
      ⟨"http".toList, "h".toList, "/x".toList, [], []⟩ (by decide) (by decide)).2
    (by decide) 200 50 "x" "text/html" (by rfl) (by decide)

/-! ## C4 (code bug): an unreadable robots.txt leaves the host fail-CLOSED,
not fail-open

The crawler's `except Exception: rp.disallow_all = False` clearly intends
all-allowed, but a `RobotFileParser` whose `read()` raised has
`last_checked == 0`, and `can_fetch` then returns `False` for every path:
every subsequent `polite_get` to the host raises `PermissionError`. -/

/-- C4 evaluated on the code: after a raising robots.txt read, the cached
rules deny every (agent, url) pair, and `polite_get` on any url of that
host fails with `RobotsDisallowed` — the opposite of the claimed fail-open
default. -/
theorem c4_robots_failure_fail_closed :
    (∀ (ua u : String), canFetch (buildRobots .raised) ua u = false) ∧
    (∀ (P : UParams) (maxBytes : ℕ) (env : FetchEnv) (st : GovState) (url : String) (sp : SplitR),
       pyUrlsplit P url.toList = some sp →
       st.robots sp.netloc.asString = none →
       env.robotsOutcome sp.netloc.asString = .raised →
       (politeGet P maxBytes env st url).outcome = .error .robotsDisallowed ∧
       (politeGet P maxBytes env st url).didFetch = false) := by
  constructor
  · intro ua u
    rfl
  · intro P maxBytes env st url sp hsp hnone hro
    have hres : resolveRobots env st sp.netloc.asString = buildRobots .raised := by
      rw [resolveRobots, hnone, hro]
    have hcf : canFetch (resolveRobots env st sp.netloc.asString) UA url = false := by
      rw [hres]; rfl
    simp only [politeGet, hsp, hcf]
    exact ⟨rfl, rfl⟩

/-- Witness for C4: concrete host `h` whose robots read raises. -/
theorem c4_witness :
    (politeGet P0 MAX_BYTES_PER_HOST envRaised st0 "http://h/x").outcome
        = .error .robotsDisallowed ∧
    (politeGet P0 MAX_BYTES_PER_HOST envRaised st0 "http://h/x").didFetch = false :=
  c4_robots_failure_fail_closed.2 P0 MAX_BYTES_PER_HOST envRaised st0 "http://h/x"
    ⟨"http".toList, "h".toList, "/x".toList, [], []⟩ (by decide) (by rfl) (by rfl)

/-! ## Structure lemmas for one `crawl` iteration -/

theorem pushMany_eq_append (s : String) (cl : List String) (links : List String) :
    ∀ q, pushMany s cl q links = q ++ pushKept s cl links := by
  induction links with
  | nil => intro q; simp [pushMany, pushKept]
  | cons u t ih =>
    intro q
    by_cases h : s = "dla" ∧ u ∈ cl
    · simp only [pushMany, List.foldl_cons, if_pos h]
      rw [show List.foldl _ q t = pushMany s cl q t from rfl, ih q]
      simp [pushKept, List.filter_cons, h]
    · simp only [pushMany, List.foldl_cons, if_neg h]
      rw [show List.foldl _ (q ++ [u]) t = pushMany s cl (q ++ [u]) t from rfl, ih (q ++ [u])]
      simp [pushKept, List.filter_cons, h, List.append_assoc]
      exact (if_pos (not_and_or.mp h)).symm

/-- Case analysis of one loop iteration, packaged for the invariants:
the visited set only grows, the cluster only grows, and the output either
stays or gains exactly one row whose url was unvisited before and is
visited afterwards. -/
theorem crawlStep_shape (ctx : CrawlCtx) (st : CrawlState) :
    st.visited ⊆ (crawlStep ctx st).visited ∧
    st.cluster ⊆ (crawlStep ctx st).cluster ∧
    ((crawlStep ctx st).output = st.output ∨
      ∃ r : Row, (crawlStep ctx st).output = st.output ++ [r] ∧
        r.url ∉ st.visited ∧ r.url ∈ (crawlStep ctx st).visited) := by
  rw [crawlStep]
  by_cases hq : st.queue = []
  · rw [if_pos hq]
    exact ⟨fun x h => h, fun x h => h, Or.inl rfl⟩
  rw [if_neg hq]
  set idx := ctx.picker st.queue % st.queue.length with hidx
  set url := st.queue.getD idx "" with hurl
  set queue1 := st.queue.eraseIdx idx with hqueue1
  by_cases hv : url ∈ st.visited
  · rw [if_pos hv]
    exact ⟨fun x h => h, fun x h => h, Or.inl rfl⟩
  rw [if_neg hv]
  rcases hout : (politeGet ctx.P ctx.maxBytes ctx.env st.gov url).outcome with err | pr
  · simp only [hout]
    exact ⟨fun x h => h, fun x h => h, Or.inl trivial⟩
  · rcases pr with ⟨html, ctype⟩
    simp only [hout]
    by_cases hh : hasSubstr ctype "text/html" = true
    · rw [if_pos hh]
      refine ⟨fun x h => List.mem_cons_of_mem _ h, ?_, Or.inr ?_⟩
      · by_cases hdla : ctx.strategy = "dla"
        · rw [if_pos hdla]
          intro x h
          exact List.mem_insert_of_mem h
        · rw [if_neg hdla]
          exact fun x h => h
      · exact ⟨⟨url, (ctx.meta html).1, (ctx.meta html).2.1, (ctx.meta html).2.2⟩,
          rfl, hv, List.mem_cons_self _ _⟩
    · rw [if_neg hh]
      exact ⟨fun x h => List.mem_cons_of_mem _ h, fun x h => h, Or.inl rfl⟩

/-! ## C7: no URL appears twice across the emitted output rows -/

theorem crawlSteps_out_nodup (ctx : CrawlCtx) :
    ∀ (fuel : ℕ) (st : CrawlState),
      (st.output.map Row.url).Nodup →
      (∀ u ∈ st.output.map Row.url, u ∈ st.visited) →
      ((crawlSteps ctx fuel st).output.map Row.url).Nodup := by
  intro fuel
  induction fuel with
  | zero => intro st h1 _; exact h1
  | succ n ih =>
    intro st h1 h2
    rw [crawlSteps]
    split
    · exact h1
    · rcases crawlStep_shape ctx st with ⟨hvis, _, hout | ⟨r, hout, hnotv, hinv⟩⟩
      · exact ih _ (by rw [hout]; exact h1)
          (fun u hu => hvis (h2 u (by rwa [hout] at hu)))
      · refine ih _ ?_ ?_
        · rw [hout, List.map_append, List.map_singleton]
          refine List.Nodup.append h1 (List.nodup_singleton _) ?_
          intro a ha hb
          have hb' := List.mem_singleton.mp hb
          subst hb'
          exact hnotv (h2 _ ha)
        · intro u hu
          rw [hout, List.map_append, List.map_singleton] at hu
          rcases List.mem_append.mp hu with hu | hu
          · exact hvis (h2 u hu)
          · rcases List.mem_singleton.mp hu with rfl
            exact hinv

/-- C7: in every session (any strategy, any randomness, any environment,
any fuel), the urls of the emitted OutputRecords are pairwise distinct:
the check-then-insert on `visited` makes each `writer.writerow` url fresh. -/
theorem c7_output_urls_unique :
    ∀ (ctx : CrawlCtx) (seed : String) (rest : List String) (fuel : ℕ),
      ((crawlRun ctx seed rest fuel).output.map Row.url).Nodup := by
  intro ctx seed rest fuel
  exact crawlSteps_out_nodup ctx fuel (crawlInit ctx seed rest)
    (by simp [crawlInit]) (by simp [crawlInit])

/-! ## C8: the cluster only grows, and `push_many` filters exactly for `dla` -/

theorem crawlSteps_cluster_mono (ctx : CrawlCtx) :
    ∀ (fuel : ℕ) (st : CrawlState), st.cluster ⊆ (crawlSteps ctx fuel st).cluster := by
  intro fuel
  induction fuel with
  | zero => intro st; exact fun x h => h
  | succ n ih =>
    intro st
    rw [crawlSteps]
    split
    · exact fun x h => h
    · exact fun x h => ih (crawlStep ctx st) ((crawlStep_shape ctx st).2.1 h)

/-- C8: during a session the `dla` cluster only ever grows; `push_many`
never admits a url already in the cluster under the `dla` strategy (its
occurrence count in the queue is unchanged), and under every other strategy
it appends every link. -/
theorem c8_cluster_monotone_enqueue_filter :
    (∀ (ctx : CrawlCtx) (fuel : ℕ) (st : CrawlState),
        st.cluster ⊆ (crawlSteps ctx fuel st).cluster) ∧
    (∀ (strat : String) (cl q links : List String) (u : String),
        strat = "dla" → u ∈ cl →
        (pushMany strat cl q links).count u = q.count u) ∧
    (∀ (strat : String) (cl q links : List String),
        strat ≠ "dla" → pushMany strat cl q links = q ++ links) := by
  refine ⟨fun ctx fuel st => crawlSteps_cluster_mono ctx fuel st, ?_, ?_⟩
  · intro strat cl q links u hs hu
    rw [pushMany_eq_append, List.count_append]
    have h0 : (pushKept strat cl links).count u = 0 := by
      rw [List.count_eq_zero]
      intro hmem
      have := List.of_mem_filter hmem
      simp [hs, hu] at this
    omega
  · intro strat cl q links hs
    rw [pushMany_eq_append]
    congr 1
    rw [pushKept, List.filter_eq_self]
    intro a _
    simp [hs]

/-- Witness for C8 at concrete inputs: cluster `["a"]`, links `["a", "b"]`. -/
theorem c8_witness :
    ["a"] ⊆ (crawlSteps ctx9 0 (crawlInit ctx9 "a" [])).cluster ∧
    (pushMany "dla" ["a"] ["q"] ["a", "b"]).count "a" = (["q"] : List String).count "a" ∧
    pushMany "levy" ["a"] ["q"] ["a", "b"] = ["q"] ++ ["a", "b"] :=
  ⟨by
      have h := c8_cluster_monotone_enqueue_filter.1 ctx9 0 (crawlInit ctx9 "a" [])
      simpa [crawlInit] using h,
   c8_cluster_monotone_enqueue_filter.2.1 "dla" ["a"] ["q"] ["a", "b"] "a" (by decide)
     (by decide),
   c8_cluster_monotone_enqueue_filter.2.2 "levy" ["a"] ["q"] ["a", "b"] (by decide)⟩

/-! ## C9 (corrected): failed urls are dropped but not remembered, so a url
can be fetch-attempted again whenever it re-enters the frontier -/

theorem count_eraseIdx_getD [DecidableEq α] (d : α) :
    ∀ (q : List α) (i : ℕ), i < q.length → ∀ u : α,
      (q.eraseIdx i).count u + (if q.getD i d = u then 1 else 0) = q.count u := by
  intro q
  induction q with
  | nil => intro i h; simp at h
  | cons a t ih =>
    intro i h u
    cases i with
    | zero =>
      by_cases hau : a = u <;>
        simp [List.eraseIdx, List.count_cons, hau, eq_comm]
    | succ j =>
      have hj : j < t.length := by simpa using h
      have hih := ih j hj u
      rw [show (a :: t).eraseIdx (j + 1) = a :: t.eraseIdx j from rfl,
          show (a :: t).getD (j + 1) d = t.getD j d from rfl,
          List.count_cons, List.count_cons]
      omega

/-- One iteration moves at most as many occurrences of `u` out of the queue
as it logs into `attempts`, while `enq` absorbs exactly what is pushed:
the quantity `attempts.count u + queue.count u - enq.count u` never
increases. -/
theorem crawlStep_count (ctx : CrawlCtx) (st : CrawlState) (u : String) :
    (crawlStep ctx st).attempts.count u + (crawlStep ctx st).queue.count u
      + st.enq.count u
    ≤ st.attempts.count u + st.queue.count u + (crawlStep ctx st).enq.count u := by
  rw [crawlStep]
  by_cases hq : st.queue = []
  · rw [if_pos hq]
  rw [if_neg hq]
  have hlen : 0 < st.queue.length := List.length_pos.mpr hq
  have hidx : ctx.picker st.queue % st.queue.length < st.queue.length :=
    Nat.mod_lt _ hlen
  have hcount := count_eraseIdx_getD "" st.queue
    (ctx.picker st.queue % st.queue.length) hidx u
  by_cases hv : st.queue.getD (ctx.picker st.queue % st.queue.length) "" ∈ st.visited
  · rw [if_pos hv]
    dsimp only
    omega
  rw [if_neg hv]
  have hatt : (st.attempts
      ++ [st.queue.getD (ctx.picker st.queue % st.queue.length) ""]).count u
      = st.attempts.count u
        + (if st.queue.getD (ctx.picker st.queue % st.queue.length) "" = u
           then 1 else 0) := by
    rw [List.count_append, List.count_singleton']
  rcases hout : (politeGet ctx.P ctx.maxBytes ctx.env st.gov
      (st.queue.getD (ctx.picker st.queue % st.queue.length) "")).outcome with err | pr
  · simp only [hout]
    try dsimp only
    rw [hatt]
    omega
  · rcases pr with ⟨html, ctype⟩
    simp only [hout]
    by_cases hh : hasSubstr ctype "text/html" = true
    · rw [if_pos hh]
      try dsimp only
      rw [hatt, pushMany_eq_append, List.count_append, List.count_append]
      omega
    · rw [if_neg hh]
      try dsimp only
      rw [hatt]
      omega

/-- C9, amended: no iteration retries a failed url on its own — the url is
simply dropped — but failed urls are not added to `visited`, so a url can
be attempted again whenever it occurs again in the frontier.  Quantitative
form: over any session, the number of `polite_get` attempts for a url never
exceeds the number of times that url was placed into the queue (seeds plus
admitted pushes). -/
theorem c9_amended_attempts_bounded_by_enqueues :
    ∀ (ctx : CrawlCtx) (seed : String) (rest : List String) (fuel : ℕ) (u : String),
      (crawlRun ctx seed rest fuel).attempts.count u
        ≤ (crawlRun ctx seed rest fuel).enq.count u := by
  have hinv : ∀ (ctx : CrawlCtx) (fuel : ℕ) (st : CrawlState) (u : String),
      st.attempts.count u + st.queue.count u ≤ st.enq.count u →
      (crawlSteps ctx fuel st).attempts.count u + (crawlSteps ctx fuel st).queue.count u
        ≤ (crawlSteps ctx fuel st).enq.count u := by
    intro ctx fuel
    induction fuel with
    | zero => intro st u h; exact h
    | succ n ih =>
      intro st u h
      rw [crawlSteps]
      split
      · exact h
      · refine ih (crawlStep ctx st) u ?_
        have := crawlStep_count ctx st u
        omega
  intro ctx seed rest fuel u
  have h0 : (crawlInit ctx seed rest).attempts.count u
      + (crawlInit ctx seed rest).queue.count u
      ≤ (crawlInit ctx seed rest).enq.count u := by
    simp [crawlInit]
  have hfin := hinv ctx fuel (crawlInit ctx seed rest) u h0
  rw [crawlRun]
  omega

/-- Counterexample to C9 as stated: strategy `dla` (pop index 0, verbatim),
seeds `[b, a]` on host `h`; `b`'s page links back to `a`, and `a` always
times out.  The session fetch-attempts `a` twice — once from the seed queue
and once after being re-discovered — even though its first attempt failed
(every attempt of `a` is a timeout and `a` never enters `visited`). -/
theorem c9_counterexample :
    (crawlRun ctx9 "http://h/b" ["http://h/a"] 6).attempts.count "http://h/a" = 2 ∧
    "http://h/a" ∉ (crawlRun ctx9 "http://h/b" ["http://h/a"] 6).visited ∧
    env9.pageResult "http://h/a" = PageOutcome.timeout := by
  refine ⟨by decide, by decide, by rfl⟩

/-! ## C6 groundwork: `Char.toLower` arithmetic -/

theorem toNat_ofNat_valid (n : ℕ) (h : n.isValidChar) : (Char.ofNat n).toNat = n := by
  simp [Char.ofNat, h, Char.toNat, Char.ofNatAux]
  rfl

theorem toLower_toNat (c : Char) :
    (c.toLower).toNat = if 65 ≤ c.toNat ∧ c.toNat ≤ 90 then c.toNat + 32 else c.toNat := by
  unfold Char.toLower
  by_cases h : 65 ≤ c.toNat ∧ c.toNat ≤ 90
  · have hv : (c.toNat + 32).isValidChar := Or.inl (by omega)
    simp [h, toNat_ofNat_valid _ hv]
  · simp [h]

theorem char_eq_of_toNat_eq {a b : Char} (h : a.toNat = b.toNat) : a = b :=
  Char.eq_of_val_eq (UInt32.ext h)

theorem toLower_idem (c : Char) : c.toLower.toLower = c.toLower := by
  apply char_eq_of_toNat_eq
  rw [toLower_toNat, toLower_toNat]
  split_ifs <;> omega

/-- `toLower` fixes every character outside the uppercase/lowercase ASCII
letter ranges and never produces one: equality with such a character is
unchanged by lower-casing. -/
theorem toLower_eq_delim {c d : Char}
    (hd : d.toNat < 65 ∨ (90 < d.toNat ∧ d.toNat < 97) ∨ 122 < d.toNat) :
    c.toLower = d ↔ c = d := by
  constructor
  · intro h
    have hn := congrArg Char.toNat h
    rw [toLower_toNat] at hn
    split at hn
    · omega
    · exact char_eq_of_toNat_eq hn
  · intro h
    subst h
    apply char_eq_of_toNat_eq
    rw [toLower_toNat]
    have hnot : ¬(65 ≤ c.toNat ∧ c.toNat ≤ 90) := by omega
    simp [hnot]

theorem isAlpha_toNat (c : Char) :
    c.isAlpha = true ↔ (65 ≤ c.toNat ∧ c.toNat ≤ 90) ∨ (97 ≤ c.toNat ∧ c.toNat ≤ 122) := by
  simp only [Char.isAlpha, Char.isUpper, Char.isLower, Bool.or_eq_true, Bool.and_eq_true,
    decide_eq_true_eq]
  exact ⟨fun h => h.imp (fun x => ⟨x.1, x.2⟩) (fun x => ⟨x.1, x.2⟩),
    fun h => h.imp (fun x => ⟨x.1, x.2⟩) (fun x => ⟨x.1, x.2⟩)⟩

theorem isDigit_toNat (c : Char) :
    c.isDigit = true ↔ 48 ≤ c.toNat ∧ c.toNat ≤ 57 := by
  simp only [Char.isDigit, Bool.and_eq_true, decide_eq_true_eq]
  exact ⟨fun h => ⟨h.1, h.2⟩, fun h => ⟨h.1, h.2⟩⟩

theorem isSchemeChar_toNat (c : Char) :
    isSchemeChar c = true ↔
      ((65 ≤ c.toNat ∧ c.toNat ≤ 90) ∨ (97 ≤ c.toNat ∧ c.toNat ≤ 122)) ∨
      (48 ≤ c.toNat ∧ c.toNat ≤ 57) ∨ c = '+' ∨ c = '-' ∨ c = '.' := by
  simp only [isSchemeChar, Bool.or_eq_true, isAlpha_toNat, isDigit_toNat, beq_iff_eq, or_assoc]

theorem isSchemeChar_toLower {c : Char} (h : isSchemeChar c = true) :
    isSchemeChar c.toLower = true := by
  rw [isSchemeChar_toNat] at h
  rcases h with (h | h) | h | h | h | h
  · have hl : (c.toLower).toNat = c.toNat + 32 := by
      rw [toLower_toNat]
      simp [h]
    rw [isSchemeChar_toNat, hl]
    exact Or.inl (Or.inr (by omega))
  · have hnot : ¬(65 ≤ c.toNat ∧ c.toNat ≤ 90) := by omega
    have hl : (c.toLower).toNat = c.toNat := by
      rw [toLower_toNat]
      simp [hnot]
    rw [isSchemeChar_toNat, hl]
    exact Or.inl (Or.inr h)
  · have hnot : ¬(65 ≤ c.toNat ∧ c.toNat ≤ 90) := by omega
    have hl : (c.toLower).toNat = c.toNat := by
      rw [toLower_toNat]
      simp [hnot]
    rw [isSchemeChar_toNat]
    exact Or.inr (Or.inl (by rw [hl]; omega))
  · subst h; decide
  · subst h; decide
  · subst h; decide

theorem isAlpha_toLower {c : Char} (h : c.isAlpha = true) : c.toLower.isAlpha = true := by
  rw [isAlpha_toNat] at h
  rw [isAlpha_toNat]
  rcases h with h | h
  · have hl : (c.toLower).toNat = c.toNat + 32 := by
      rw [toLower_toNat]
      simp [h]
    rw [hl]
    omega
  · have hnot : ¬(65 ≤ c.toNat ∧ c.toNat ≤ 90) := by omega
    have hl : (c.toLower).toNat = c.toNat := by
      rw [toLower_toNat]
      simp [hnot]
    rw [hl]
    omega

theorem isUnsafe_toLower {c : Char} (h : isUnsafe c = false) : isUnsafe c.toLower = false := by
  simp only [isUnsafe, Bool.or_eq_false_iff, beq_eq_false_iff_ne, ne_eq] at h ⊢
  refine ⟨⟨fun hx => h.1.1 ((toLower_eq_delim (by decide)).mp hx),
    fun hx => h.1.2 ((toLower_eq_delim (by decide)).mp hx)⟩,
    fun hx => h.2 ((toLower_eq_delim (by decide)).mp hx)⟩

theorem isNetlocEnd_toLower {c : Char} (h : isNetlocEnd c = false) :
    isNetlocEnd c.toLower = false := by
  simp only [isNetlocEnd, Bool.or_eq_false_iff, beq_eq_false_iff_ne, ne_eq] at h ⊢
  refine ⟨⟨fun hx => h.1.1 ((toLower_eq_delim (by decide)).mp hx),
    fun hx => h.1.2 ((toLower_eq_delim (by decide)).mp hx)⟩,
    fun hx => h.2 ((toLower_eq_delim (by decide)).mp hx)⟩

theorem isC0Space_toLower {c : Char} (h : isC0Space c = false) : isC0Space c.toLower = false := by
  simp only [isC0Space, decide_eq_false_iff_not, not_le] at h ⊢
  rw [toLower_toNat]
  split <;> omega

/-! ## C6 groundwork: splitting lists at delimiters -/

theorem takeWhile_append_all {α : Type} {p : α → Bool} {l : List α}
    (h : ∀ c ∈ l, p c = true) (t : List α) :
    (l ++ t).takeWhile p = l ++ t.takeWhile p := by
  induction l with
  | nil => simp
  | cons a l ih =>
    have ha := h a (List.mem_cons_self a l)
    simp only [List.cons_append, List.takeWhile_cons, ha, if_true]
    rw [ih (fun c hc => h c (List.mem_cons_of_mem a hc))]

theorem dropWhile_append_all {α : Type} {p : α → Bool} {l : List α}
    (h : ∀ c ∈ l, p c = true) (t : List α) :
    (l ++ t).dropWhile p = t.dropWhile p := by
  induction l with
  | nil => simp
  | cons a l ih =>
    have ha := h a (List.mem_cons_self a l)
    simp only [List.cons_append, List.dropWhile_cons, ha, if_true]
    exact ih (fun c hc => h c (List.mem_cons_of_mem a hc))

theorem takeWhile_append_fail {α : Type} {p : α → Bool} {l : List α} {d : α}
    (h : ∀ c ∈ l, p c = true) (hd : p d = false) (t : List α) :
    (l ++ d :: t).takeWhile p = l ∧ (l ++ d :: t).dropWhile p = d :: t := by
  constructor
  · rw [takeWhile_append_all h, List.takeWhile_cons, hd]
    simp
  · rw [dropWhile_append_all h, List.dropWhile_cons, hd]
    simp

/-- Decompose a list at the first element failing `p`. -/
theorem first_fail {α : Type} {p : α → Bool} {l : List α}
    (h : ∃ x ∈ l, p x = false) :
    ∃ A d B, l = A ++ d :: B ∧ (∀ x ∈ A, p x = true) ∧ p d = false ∧
      l.takeWhile p = A ∧ l.dropWhile p = d :: B := by
  induction l with
  | nil => rcases h with ⟨x, hx, _⟩; cases hx
  | cons a l ih =>
    by_cases hpa : p a = true
    · have h' : ∃ x ∈ l, p x = false := by
        rcases h with ⟨x, hx, hpx⟩
        rcases List.mem_cons.mp hx with rfl | hx'
        · rw [hpa] at hpx; cases hpx
        · exact ⟨x, hx', hpx⟩
      rcases ih h' with ⟨A, d, B, rfl, hA, hd, htake, hdrop⟩
      refine ⟨a :: A, d, B, rfl, ?_, hd, ?_, ?_⟩
      · intro x hx
        rcases List.mem_cons.mp hx with rfl | hx'
        · exact hpa
        · exact hA x hx'
      · rw [List.takeWhile_cons, hpa]
        simp [htake]
      · rw [List.dropWhile_cons, hpa]
        simp [hdrop]
    · have hpa' : p a = false := by
        cases hb : p a
        · rfl
        · exact absurd hb hpa
      refine ⟨[], a, l, rfl, by simp, hpa', ?_, ?_⟩
      · rw [List.takeWhile_cons, hpa']
        simp
      · rw [List.dropWhile_cons, hpa']
        simp

theorem contains_iff_mem {l : List Char} {c : Char} : l.contains c = true ↔ c ∈ l := by
  simp [List.contains]

theorem contains_false_iff {l : List Char} {c : Char} : l.contains c = false ↔ c ∉ l := by
  rw [← Bool.not_eq_true, contains_iff_mem]

theorem splitOnce_spec {c : Char} {A B : List Char} (h : ∀ x ∈ A, (x == c) = false) :
    splitOnce c (A ++ c :: B) = (A, B) := by
  have h' : ∀ x ∈ A, (fun x => !(x == c)) x = true := by
    intro x hx
    simp [h x hx]
  have hc : (fun x => !(x == c)) c = false := by simp
  rcases takeWhile_append_fail h' hc B with ⟨h1, h2⟩
  rw [splitOnce, h1, h2]
  simp

theorem splitNetloc_spec {n rest : List Char} (hn : ∀ c ∈ n, isNetlocEnd c = false)
    (hr : rest = [] ∨ ∃ d t, rest = d :: t ∧ isNetlocEnd d = true) :
    splitNetloc (n ++ rest) = (n, rest) := by
  have h' : ∀ c ∈ n, (fun c => !isNetlocEnd c) c = true := by
    intro c hc
    simp [hn c hc]
  rcases hr with rfl | ⟨d, t, rfl, hd⟩
  · rw [splitNetloc]
    rw [List.append_nil, List.takeWhile_eq_self_iff.mpr h', List.dropWhile_eq_nil_iff.mpr ?_]
    intro x hx
    simp [hn x hx]
  · have hd' : (fun c => !isNetlocEnd c) d = false := by simp [hd]
    rcases takeWhile_append_fail h' hd' t with ⟨h1, h2⟩
    rw [splitNetloc, h1, h2]

theorem headD_append_cons {a : Char} {l t : List Char} (d : Char) :
    ((a :: l) ++ t).headD d = a := rfl

theorem splitScheme_found {s rest : List Char} (hne : s ≠ [])
    (hhead : (s.headD ' ').isAlpha = true) (hall : s.all isSchemeChar = true) :
    splitScheme (s ++ ':' :: rest) = (s.map Char.toLower, rest) := by
  have hnc : ∀ x ∈ s, (x == ':') = false := by
    intro x hx
    have hsx := List.all_eq_true.mp hall x hx
    have : x ≠ ':' := by
      intro hxx
      subst hxx
      exact absurd hsx (by decide)
    simp [this]
  have h' : ∀ x ∈ s, (fun x => !(x == ':')) x = true := by
    intro x hx
    simp [hnc x hx]
  have hc : (fun x => !(x == ':')) ':' = false := by simp
  rcases takeWhile_append_fail h' hc rest with ⟨h1, h2⟩
  have hcont : (s ++ ':' :: rest).contains ':' = true :=
    contains_iff_mem.mpr (List.mem_append.mpr (Or.inr (List.mem_cons_self _ _)))
  have hhead' : ((s ++ ':' :: rest).headD ' ').isAlpha = true := by
    rcases s with _ | ⟨a, s'⟩
    · exact absurd rfl hne
    · rw [headD_append_cons]
      exact hhead
  rw [splitScheme]
  rw [if_pos ⟨hcont, by rw [h1]; exact hne, hhead', by rw [h1]; exact hall⟩, h1, h2]
  simp

theorem splitScheme_not_alpha {l : List Char}
    (h : l = [] ∨ (l.headD ' ').isAlpha = false) : splitScheme l = ([], l) := by
  rw [splitScheme, if_neg]
  rintro ⟨h1, _h2, h3, _h4⟩
  rcases h with rfl | hh
  · rw [contains_iff_mem] at h1
    cases h1
  · rw [hh] at h3
    cases h3

/-- From `splitScheme l = ([], l)` conclude the scheme condition is false. -/
theorem splitScheme_none_cond {l : List Char} (h : splitScheme l = ([], l)) :
    ¬(l.contains ':' = true ∧ l.takeWhile (fun x => !(x == ':')) ≠ [] ∧
      (l.headD ' ').isAlpha = true ∧
      (l.takeWhile (fun x => !(x == ':'))).all isSchemeChar = true) := by
  intro hcond
  rw [splitScheme, if_pos hcond] at h
  have := congrArg Prod.fst h
  simp only at this
  exact hcond.2.1 (List.map_eq_nil_iff.mp this)

/-- A scheme-free string stays scheme-free after truncating it to a prefix
and appending an optional `?query` suffix. -/
theorem schemeFree_ext {w pre qs : List Char}
    (hw : splitScheme w = ([], w)) (hpre : ∃ t, w = pre ++ t)
    (hqs : qs = [] ∨ ∃ q', qs = '?' :: q') :
    splitScheme (pre ++ qs) = ([], pre ++ qs) := by
  rw [splitScheme, if_neg]
  rintro ⟨hcont, hpre_ne, hhead, hall⟩
  rcases hpre with ⟨t, rfl⟩
  by_cases hcp : ':' ∈ pre
  · -- the first `:` of `w` lies inside `pre`; the scheme condition
    -- transfers to `w`, contradicting `hw`
    have hff : ∃ x ∈ pre, (fun x => !(x == ':')) x = false := by
      exact ⟨':', hcp, by simp⟩
    rcases first_fail hff with ⟨A, d, B, hdecomp, hA, hd, htakeP, _⟩
    have hd' : d = ':' := by
      have : (d == ':') = true := by
        cases hb : (d == ':')
        · rw [hb] at hd
          simp at hd
        · rfl
      exact eq_of_beq this
    subst hd'
    have hA' : ∀ x ∈ A, (x == ':') = false := by
      intro x hx
      have := hA x hx
      cases hb : (x == ':')
      · rfl
      · rw [hb] at this; simp at this
    -- takeWhile over pre ++ qs and over pre ++ t agree (both stop inside pre)
    have htakeO : ((pre ++ qs).takeWhile (fun x => !(x == ':'))) = A := by
      rw [hdecomp, List.append_assoc, List.cons_append]
      exact (takeWhile_append_fail hA (by simp) _).1
    have htakeW : ((pre ++ t).takeWhile (fun x => !(x == ':'))) = A := by
      rw [hdecomp, List.append_assoc, List.cons_append]
      exact (takeWhile_append_fail hA (by simp) _).1
    have hcontW : (pre ++ t).contains ':' = true := by
      rw [contains_iff_mem]
      exact List.mem_append.mpr (Or.inl hcp)
    have hheadW : ((pre ++ t).headD ' ').isAlpha = true := by
      rcases pre with _ | ⟨a, pre'⟩
      · -- pre = []: the head of pre ++ qs is `?` or absent, not a letter
        rcases hqs with rfl | ⟨q', rfl⟩
        · rw [contains_iff_mem] at hcont
          cases hcont
        · have hq' : (([] ++ '?' :: q').headD ' ') = '?' := rfl
          rw [hq'] at hhead
          exact absurd hhead (by decide)
      · rw [headD_append_cons] at hhead ⊢
        exact hhead
    exact splitScheme_none_cond hw
      ⟨hcontW, by rw [htakeW]; rw [htakeO] at hpre_ne; exact hpre_ne, hheadW,
        by rw [htakeW]; rw [htakeO] at hall; exact hall⟩
  · -- no `:` in pre, so the `:` of `pre ++ qs` lies in the query suffix,
    -- whose leading `?` then poisons the scheme-char check
    rcases hqs with rfl | ⟨q', rfl⟩
    · rw [List.append_nil] at hcont
      rw [contains_iff_mem] at hcont
      exact hcp hcont
    · have hpre_ok : ∀ x ∈ pre, (fun x => !(x == ':')) x = true := by
        intro x hx
        have : x ≠ ':' := fun hxx => hcp (hxx ▸ hx)
        simp [this]
      have htakeO : ((pre ++ '?' :: q').takeWhile (fun x => !(x == ':')))
          = pre ++ ('?' :: q').takeWhile (fun x => !(x == ':')) :=
        takeWhile_append_all hpre_ok _
      have hq : ('?' :: q').takeWhile (fun x => !(x == ':'))
          = '?' :: q'.takeWhile (fun x => !(x == ':')) := by
        rw [List.takeWhile_cons]
        simp
      have hmem : '?' ∈ (pre ++ '?' :: q').takeWhile (fun x => !(x == ':')) := by
        rw [htakeO, hq]
        exact List.mem_append.mpr (Or.inr (List.mem_cons_self _ _))
      have := List.all_eq_true.mp hall '?' hmem
      exact absurd this (by decide)

/-! ## C6 groundwork: component facts of the parsed pieces -/

theorem cleanUrl_id {l : List Char} (h1 : l = [] ∨ isC0Space (l.headD ' ') = false)
    (h2 : ∀ c ∈ l, isUnsafe c = false) : cleanUrl l = l := by
  rcases l with _ | ⟨a, t⟩
  · rfl
  · have ha : isC0Space a = false := by
      rcases h1 with h1 | h1
      · cases h1
      · exact h1
    rw [cleanUrl, List.dropWhile_cons, if_neg (by rw [ha]; exact Bool.false_ne_true)]
    exact List.filter_eq_self.mpr (fun c hc => by simp [h2 c hc])

theorem toNat_toLower_le {c : Char} (h : c.toNat ≤ 127) : c.toLower.toNat ≤ 127 := by
  rw [toLower_toNat]
  split <;> omega

theorem checkNetloc_ascii (P : UParams) {n : List Char} (h : ∀ c ∈ n, c.toNat ≤ 127) :
    checkNetloc P n = true := by
  have hall : n.all (fun c => decide (c.toNat ≤ 127)) = true :=
    List.all_eq_true.mpr (fun c hc => decide_eq_true (h c hc))
  simp [checkNetloc, hall]

theorem all_beq_false_of_not_mem {l : List Char} {d : Char} (h : d ∉ l) :
    ∀ x ∈ l, (x == d) = false := by
  intro x hx
  have hxd : x ≠ d := fun hxd => h (hxd ▸ hx)
  simp [hxd]

theorem not_mem_map_toLower {n : List Char} {d : Char}
    (hd : d.toNat < 65 ∨ (90 < d.toNat ∧ d.toNat < 97) ∨ 122 < d.toNat)
    (h : d ∉ n) : d ∉ n.map Char.toLower := by
  intro hmem
  rcases List.mem_map.mp hmem with ⟨c, hc, hcd⟩
  have hce : c = d := (toLower_eq_delim hd).mp hcd
  subst hce
  exact h hc

theorem map_toLower_forall {Q : Char → Bool} (hQ : ∀ c : Char, Q c = false → Q c.toLower = false)
    {n : List Char} (h : ∀ c ∈ n, Q c = false) : ∀ c ∈ n.map Char.toLower, Q c = false := by
  intro c hc
  rcases List.mem_map.mp hc with ⟨a, ha, rfl⟩
  exact hQ a (h a ha)

theorem map_toLower_ascii {n : List Char} (h : ∀ c ∈ n, c.toNat ≤ 127) :
    ∀ c ∈ n.map Char.toLower, c.toNat ≤ 127 := by
  intro c hc
  rcases List.mem_map.mp hc with ⟨a, ha, rfl⟩
  exact toNat_toLower_le (h a ha)

theorem map_toLower_idem (l : List Char) :
    (l.map Char.toLower).map Char.toLower = l.map Char.toLower := by
  induction l with
  | nil => rfl
  | cons a t ih => simp [toLower_idem, ih]

theorem headD_map_toLower {s : List Char} (hne : s ≠ []) :
    (s.map Char.toLower).headD ' ' = (s.headD ' ').toLower := by
  rcases s with _ | ⟨a, t⟩
  · exact absurd rfl hne
  · rfl

theorem isC0Space_of_alpha {c : Char} (h : c.isAlpha = true) : isC0Space c = false := by
  rw [isAlpha_toNat] at h
  simp only [isC0Space, decide_eq_false_iff_not, not_le]
  omega

theorem isUnsafe_of_schemeChar {c : Char} (h : isSchemeChar c = true) : isUnsafe c = false := by
  rw [isSchemeChar_toNat] at h
  simp only [isUnsafe, Bool.or_eq_false_iff, beq_eq_false_iff_ne, ne_eq]
  refine ⟨⟨fun hc => ?_, fun hc => ?_⟩, fun hc => ?_⟩ <;>
  · subst hc
    revert h
    decide

theorem not_mem_of_netlocEnd {n : List Char} (h : ∀ c ∈ n, isNetlocEnd c = false)
    {d : Char} (hd : isNetlocEnd d = true) : d ∉ n := by
  intro hm
  rw [h d hm] at hd
  cases hd

theorem not_mem_of_schemeChar {s : List Char} (h : s.all isSchemeChar = true)
    {d : Char} (hd : isSchemeChar d = false) : d ∉ s := by
  intro hm
  have := List.all_eq_true.mp h d hm
  rw [hd] at this
  cases this

theorem mem_qSuff {c : Char} {q : List Char} (h : c ∈ qSuff q) : c = '?' ∨ c ∈ q := by
  rw [qSuff] at h
  by_cases hq : q = []
  · rw [if_neg (fun hne => hne hq)] at h
    cases h
  · rw [if_pos hq] at h
    exact List.mem_cons.mp h

theorem hash_not_mem_pq {p q : List Char} (hp : '#' ∉ p) (hq : '#' ∉ q) :
    '#' ∉ p ++ qSuff q := by
  intro hmem
  rcases List.mem_append.mp hmem with h | h
  · exact hp h
  · rcases mem_qSuff h with h | h
    · exact absurd h (by decide)
    · exact hq h

/-! ## C6 groundwork: the fragment/query split on reassembled input -/

theorem query_split {p : List Char} (q : List Char) (hp_q : '?' ∉ p) :
    (if (p ++ qSuff q).contains '?' then splitOnce '?' (p ++ qSuff q)
     else (p ++ qSuff q, [])) = (p, q) := by
  by_cases hq : q = []
  · subst hq
    have h1 : qSuff [] = [] := rfl
    rw [h1, List.append_nil, if_neg (fun hc => hp_q (contains_iff_mem.mp hc))]
  · have hc : (p ++ qSuff q).contains '?' = true := by
      rw [contains_iff_mem, qSuff, if_pos hq]
      exact List.mem_append.mpr (Or.inr (List.mem_cons_self _ _))
    rw [if_pos hc, qSuff, if_pos hq, splitOnce_spec (all_beq_false_of_not_mem hp_q)]

theorem finishSplit_no_frag (P : UParams) (s n p q : List Char)
    (hck : checkNetloc P n = true) (hp_h : '#' ∉ p) (hp_q : '?' ∉ p) (hq_h : '#' ∉ q) :
    finishSplit P s n (p ++ qSuff q) = some ⟨s, n, p, q, []⟩ := by
  have hA : '#' ∉ p ++ qSuff q := hash_not_mem_pq hp_h hq_h
  simp only [finishSplit]
  rw [if_neg (fun hc => hA (contains_iff_mem.mp hc))]
  rw [query_split q hp_q, if_pos hck]

theorem finishSplit_frag (P : UParams) (s n p q f : List Char)
    (hck : checkNetloc P n = true) (hp_h : '#' ∉ p) (hp_q : '?' ∉ p) (hq_h : '#' ∉ q) :
    finishSplit P s n ((p ++ qSuff q) ++ '#' :: f) = some ⟨s, n, p, q, f⟩ := by
  have hA : '#' ∉ p ++ qSuff q := hash_not_mem_pq hp_h hq_h
  have hc : ((p ++ qSuff q) ++ '#' :: f).contains '#' = true := by
    rw [contains_iff_mem]
    exact List.mem_append.mpr (Or.inr (List.mem_cons_self _ _))
  simp only [finishSplit]
  rw [if_pos hc, splitOnce_spec (all_beq_false_of_not_mem hA)]
  rw [query_split q hp_q, if_pos hck]

/-! ## C6 groundwork: the shape of `urlunsplit` output -/

theorem unsplit_eq (s n p q f : List Char)
    (hp : p = [] ∨ ∃ t, p = '/' :: t)
    (hcond : n ≠ [] ∨ (s ≠ [] ∧ usesNetloc.contains s = true ∧ p.take 2 ≠ ['/', '/'])) :
    pyUrlunsplit ⟨s, n, p, q, f⟩ =
      (if s = [] then [] else s ++ [':']) ++ ('/' :: '/' :: (n ++ p)) ++ qSuff q ++
        (if f = [] then [] else '#' :: f) := by
  have hins : (if p ≠ [] ∧ p.take 1 ≠ ['/'] then '/' :: p else p) = p := by
    rcases hp with rfl | ⟨t, rfl⟩
    · simp
    · rw [if_neg]
      rintro ⟨_, hne⟩
      exact hne rfl
  simp only [pyUrlunsplit]
  rw [if_pos hcond, hins]
  by_cases hs : s = [] <;> by_cases hqe : q = [] <;> by_cases hfe : f = [] <;>
    simp [hs, hqe, hfe, qSuff, List.append_assoc]

/-- What follows the netloc in reassembled input: empty, or headed by a
netloc-ending delimiter. -/
theorem tail_shape (p q f : List Char) (hp : p = [] ∨ ∃ t, p = '/' :: t) :
    (p ++ (qSuff q ++ (if f = [] then [] else '#' :: f))) = [] ∨
    ∃ d t, (p ++ (qSuff q ++ (if f = [] then [] else '#' :: f))) = d :: t ∧
      isNetlocEnd d = true := by
  rcases hp with rfl | ⟨t, rfl⟩
  · by_cases hq : q = []
    · subst hq
      by_cases hf : f = []
      · subst hf
        left
        rfl
      · right
        refine ⟨'#', f, ?_, by decide⟩
        rw [if_neg hf]
        rfl
    · right
      refine ⟨'?', q ++ (qSuff q ++ (if f = [] then [] else '#' :: f)).drop (q.length + 1), ?_, by decide⟩
      rw [qSuff, if_pos hq]
      simp
  · right
    exact ⟨'/', t ++ (qSuff q ++ (if f = [] then [] else '#' :: f)), by simp, by decide⟩

/-- The heart of the roundtrip: `urlsplit` on a cleaned input whose scheme
split exposes `//netloc path ?query #frag` recovers the components. -/
theorem pyUrlsplit_of_scheme_split (P : UParams) {u S : List Char} (n p q f : List Char)
    (hcl : cleanUrl u = u)
    (hsp : splitScheme u =
      (S, '/' :: '/' :: (n ++ (p ++ (qSuff q ++ (if f = [] then [] else '#' :: f))))))
    (hn_delim : ∀ c ∈ n, isNetlocEnd c = false)
    (hn_ascii : ∀ c ∈ n, c.toNat ≤ 127)
    (hn_b1 : '[' ∉ n) (hn_b2 : ']' ∉ n)
    (hp : p = [] ∨ ∃ t, p = '/' :: t)
    (hp_h : '#' ∉ p) (hp_q : '?' ∉ p) (hq_h : '#' ∉ q) :
    pyUrlsplit P u = some ⟨S, n, p, q, f⟩ := by
  have hnl : splitNetloc (n ++ (p ++ (qSuff q ++ (if f = [] then [] else '#' :: f)))) =
      (n, p ++ (qSuff q ++ (if f = [] then [] else '#' :: f))) :=
    splitNetloc_spec hn_delim (tail_shape p q f hp)
  have hb1' : n.contains '[' = false := contains_false_iff.mpr hn_b1
  have hb2' : n.contains ']' = false := contains_false_iff.mpr hn_b2
  have hfin : finishSplit P S n (p ++ (qSuff q ++ (if f = [] then [] else '#' :: f))) =
      some ⟨S, n, p, q, f⟩ := by
    by_cases hfe : f = []
    · subst hfe
      have h0 : (if ([] : List Char) = [] then ([] : List Char) else '#' :: []) = [] := rfl
      rw [h0, List.append_nil]
      exact finishSplit_no_frag P S n p q (checkNetloc_ascii P hn_ascii) hp_h hp_q hq_h
    · rw [if_neg hfe, ← List.append_assoc]
      exact finishSplit_frag P S n p q f (checkNetloc_ascii P hn_ascii) hp_h hp_q hq_h
  have ht2 : ('/' :: '/' ::
      (n ++ (p ++ (qSuff q ++ (if f = [] then [] else '#' :: f))))).take 2 = ['/', '/'] := rfl
  have hd2 : ('/' :: '/' ::
      (n ++ (p ++ (qSuff q ++ (if f = [] then [] else '#' :: f))))).drop 2 =
      n ++ (p ++ (qSuff q ++ (if f = [] then [] else '#' :: f))) := rfl
  have hc1 : ((n.contains '[' && !n.contains ']') || (n.contains ']' && !n.contains '[')) =
      false := by
    rw [hb1', hb2']
    rfl
  have hc2 : (n.contains '[' && n.contains ']' && !(P.bhostOk (bracketPart n))) = false := by
    rw [hb1']
    rfl
  simp only [pyUrlsplit, hcl, hsp]
  rw [if_pos ht2, hd2]
  simp only [hnl]
  rw [if_neg (by rw [hc1]; exact Bool.false_ne_true),
    if_neg (by rw [hc2]; exact Bool.false_ne_true)]
  exact hfin

/-- Roundtrip: `urlsplit (urlunsplit components)` recovers the components,
lower-casing the scheme, for well-formed non-empty-netloc components. -/
theorem split_of_unsplit (P : UParams) (s n p q f : List Char)
    (hs : s ≠ [] → (s.headD ' ').isAlpha = true ∧ s.all isSchemeChar = true)
    (hn_delim : ∀ c ∈ n, isNetlocEnd c = false)
    (hn_ascii : ∀ c ∈ n, c.toNat ≤ 127)
    (hn_b1 : '[' ∉ n) (hn_b2 : ']' ∉ n)
    (hn_u : ∀ c ∈ n, isUnsafe c = false)
    (hp : p = [] ∨ ∃ t, p = '/' :: t)
    (hp_h : '#' ∉ p) (hp_q : '?' ∉ p) (hp_u : ∀ c ∈ p, isUnsafe c = false)
    (hq_h : '#' ∉ q) (hq_u : ∀ c ∈ q, isUnsafe c = false)
    (hf_u : ∀ c ∈ f, isUnsafe c = false)
    (hn_ne : n ≠ []) :
    pyUrlsplit P (pyUrlunsplit ⟨s, n, p, q, f⟩) = some ⟨s.map Char.toLower, n, p, q, f⟩ := by
  have hT_u : ∀ c ∈ ('/' :: '/' ::
      (n ++ (p ++ (qSuff q ++ (if f = [] then [] else '#' :: f))))), isUnsafe c = false := by
    intro c hc
    simp only [List.mem_cons, List.mem_append] at hc
    rcases hc with rfl | rfl | hc | hc | hc | hc
    · decide
    · decide
    · exact hn_u c hc
    · exact hp_u c hc
    · rcases mem_qSuff hc with rfl | hc
      · decide
      · exact hq_u c hc
    · by_cases hf : f = []
      · rw [if_pos hf] at hc
        cases hc
      · rw [if_neg hf] at hc
        rcases List.mem_cons.mp hc with rfl | hc
        · decide
        · exact hf_u c hc
  rw [unsplit_eq s n p q f hp (Or.inl hn_ne)]
  by_cases hs0 : s = []
  · subst hs0
    have h0 : (if ([] : List Char) = [] then ([] : List Char) else [] ++ [':']) = [] := rfl
    rw [h0, List.nil_append, List.map_nil]
    have hU : ('/' :: '/' :: (n ++ p)) ++ qSuff q ++ (if f = [] then [] else '#' :: f) =
        '/' :: '/' :: (n ++ (p ++ (qSuff q ++ (if f = [] then [] else '#' :: f)))) := by
      simp [List.append_assoc]
    rw [hU]
    refine pyUrlsplit_of_scheme_split P n p q f ?_ ?_ hn_delim hn_ascii hn_b1 hn_b2 hp
      hp_h hp_q hq_h
    · exact cleanUrl_id (Or.inr (show isC0Space '/' = false by decide)) hT_u
    · exact splitScheme_not_alpha (Or.inr (show ('/').isAlpha = false by decide))
  · rw [if_neg hs0]
    rcases hs hs0 with ⟨hsa, hsc⟩
    have hU : (s ++ [':']) ++ ('/' :: '/' :: (n ++ p)) ++ qSuff q ++
        (if f = [] then [] else '#' :: f) =
        s ++ ':' :: ('/' :: '/' ::
          (n ++ (p ++ (qSuff q ++ (if f = [] then [] else '#' :: f))))) := by
      simp [List.append_assoc]
    rw [hU]
    refine pyUrlsplit_of_scheme_split P n p q f ?_ ?_ hn_delim hn_ascii hn_b1 hn_b2 hp
      hp_h hp_q hq_h
    · apply cleanUrl_id
      · right
        rcases s with _ | ⟨a, s'⟩
        · exact absurd rfl hs0
        · rw [List.cons_append]
          exact isC0Space_of_alpha hsa
      · intro c hc
        rcases List.mem_append.mp hc with hc | hc
        · exact isUnsafe_of_schemeChar (List.all_eq_true.mp hsc c hc)
        · rcases List.mem_cons.mp hc with rfl | hc
          · decide
          · exact hT_u c hc
    · exact splitScheme_found hs0 hsa hsc

/-! ## C6: from the roundtrip to `canon` itself -/

theorem pyUrlparse_no_params {P : UParams} {u : List Char} {r : SplitR}
    (h : pyUrlsplit P u = some r) (hsc : ';' ∉ r.path) :
    pyUrlparse P u = some ⟨r.scheme, r.netloc, r.path, [], r.query, r.frag⟩ := by
  have hg : ¬(usesParams.contains r.scheme = true ∧ r.path.contains ';' = true) := by
    rintro ⟨_, hc⟩
    exact hsc (contains_iff_mem.mp hc)
  rw [pyUrlparse, h, Option.map_some', if_neg hg]

theorem defragged_no_hash {P : UParams} {u : List Char} (h : u.contains '#' = false) :
    defragged P u = some u := by
  rw [defragged, if_neg (by rw [h]; exact Bool.false_ne_true)]

theorem defragged_hash {P : UParams} {u : List Char} {rp : ParseR}
    (hc : u.contains '#' = true) (h : pyUrlparse P u = some rp) :
    defragged P u =
      some (pyUrlunparse ⟨rp.scheme, rp.netloc, rp.path, rp.params, rp.query, []⟩) := by
  rw [defragged, if_pos hc, h, Option.map_some']

theorem canonL_eval {P : UParams} {u d : List Char} {rp : ParseR}
    (hd : defragged P u = some d) (hp : pyUrlparse P d = some rp) :
    canonL P u = some (pyUrlunparse ⟨rp.scheme.map Char.toLower, rp.netloc.map Char.toLower,
      rp.path, rp.params, rp.query, rp.frag⟩) := by
  rw [canonL, hd, Option.some_bind, hp, Option.map_some']

theorem unparse_no_params (s n p q f : List Char) :
    pyUrlunparse ⟨s, n, p, [], q, f⟩ = pyUrlunsplit ⟨s, n, p, q, f⟩ := by
  simp only [pyUrlunparse]
  rw [if_neg (fun h => h rfl)]

theorem unsplit_no_hash (s n p q : List Char)
    (hp : p = [] ∨ ∃ t, p = '/' :: t) (hn_ne : n ≠ [])
    (hs_h : '#' ∉ s) (hn_h : '#' ∉ n) (hp_h : '#' ∉ p) (hq_h : '#' ∉ q) :
    (pyUrlunsplit ⟨s, n, p, q, []⟩).contains '#' = false := by
  rw [unsplit_eq s n p q [] hp (Or.inl hn_ne), contains_false_iff]
  have h0 : (if ([] : List Char) = [] then ([] : List Char) else '#' :: []) = [] := rfl
  rw [h0, List.append_nil]
  intro hmem
  rcases List.mem_append.mp hmem with hmem | hmem
  · rcases List.mem_append.mp hmem with hmem | hmem
    · by_cases hs0 : s = []
      · rw [if_pos hs0] at hmem
        cases hmem
      · rw [if_neg hs0] at hmem
        rcases List.mem_append.mp hmem with hmem | hmem
        · exact hs_h hmem
        · rcases List.mem_cons.mp hmem with he | hmem
          · exact absurd he (by decide)
          · cases hmem
    · rcases List.mem_cons.mp hmem with he | hmem
      · exact absurd he (by decide)
      rcases List.mem_cons.mp hmem with he | hmem
      · exact absurd he (by decide)
      rcases List.mem_append.mp hmem with hmem | hmem
      · exact hn_h hmem
      · exact hp_h hmem
  · rcases mem_qSuff hmem with he | hmem
    · exact absurd he (by decide)
    · exact hq_h hmem

theorem scheme_facts_toLower {s : List Char}
    (hs : s ≠ [] → (s.headD ' ').isAlpha = true ∧ s.all isSchemeChar = true) :
    s.map Char.toLower ≠ [] → ((s.map Char.toLower).headD ' ').isAlpha = true ∧
      (s.map Char.toLower).all isSchemeChar = true := by
  intro hne
  have hsne : s ≠ [] := fun he => hne (by rw [he]; rfl)
  rcases hs hsne with ⟨h1, h2⟩
  constructor
  · rw [headD_map_toLower hsne]
    exact isAlpha_toLower h1
  · rw [List.all_eq_true]
    intro c hc
    rcases List.mem_map.mp hc with ⟨a, ha, rfl⟩
    exact isSchemeChar_toLower (List.all_eq_true.mp h2 a ha)

theorem scheme_no_hash {s : List Char}
    (hs : s ≠ [] → (s.headD ' ').isAlpha = true ∧ s.all isSchemeChar = true) : '#' ∉ s := by
  intro hm
  rcases s with _ | ⟨a, t⟩
  · cases hm
  · have := (hs (List.cons_ne_nil a t)).2
    exact absurd (List.all_eq_true.mp this '#' hm) (by decide)

/-- C6 (amended): `canon` is NOT idempotent in general (see the
counterexample: when the parsed netloc is empty and the path starts with
`//`, re-assembly merges the path head into a netloc).  It IS idempotent —
and strips the fragment and lower-cases scheme and netloc — on every URL
`scheme://netloc/path?query#frag` assembled from a well-formed scheme, a
non-empty bracket-free ASCII netloc, a `/`-leading (or empty) path free of
`#?;`, a `#`-free query and any fragment: one `canon` pass yields
`lower(scheme)://lower(netloc)/path?query`, and a second pass fixes it. -/
theorem c6_canon_idempotent_no_collapse (P : UParams) (s n p q f : List Char)
    (hs : s ≠ [] → (s.headD ' ').isAlpha = true ∧ s.all isSchemeChar = true)
    (hn_ne : n ≠ [])
    (hn_delim : ∀ c ∈ n, isNetlocEnd c = false)
    (hn_ascii : ∀ c ∈ n, c.toNat ≤ 127)
    (hn_b1 : '[' ∉ n) (hn_b2 : ']' ∉ n)
    (hn_u : ∀ c ∈ n, isUnsafe c = false)
    (hp : p = [] ∨ ∃ t, p = '/' :: t)
    (hp_h : '#' ∉ p) (hp_q : '?' ∉ p) (hp_sc : ';' ∉ p) (hp_u : ∀ c ∈ p, isUnsafe c = false)
    (hq_h : '#' ∉ q) (hq_u : ∀ c ∈ q, isUnsafe c = false)
    (hf_u : ∀ c ∈ f, isUnsafe c = false) :
    canonL P (pyUrlunsplit ⟨s, n, p, q, f⟩) =
      some (pyUrlunsplit ⟨s.map Char.toLower, n.map Char.toLower, p, q, []⟩) ∧
    (canonL P (pyUrlunsplit ⟨s, n, p, q, f⟩)).bind (canonL P) =
      canonL P (pyUrlunsplit ⟨s, n, p, q, f⟩) := by
  have hs2 := scheme_facts_toLower hs
  have hn_ne2 : n.map Char.toLower ≠ [] := fun h => hn_ne (List.map_eq_nil_iff.mp h)
  have hn_delim2 : ∀ c ∈ n.map Char.toLower, isNetlocEnd c = false :=
    map_toLower_forall (fun _ h => isNetlocEnd_toLower h) hn_delim
  have hn_ascii2 : ∀ c ∈ n.map Char.toLower, c.toNat ≤ 127 := map_toLower_ascii hn_ascii
  have hn_b1' : '[' ∉ n.map Char.toLower := not_mem_map_toLower (by decide) hn_b1
  have hn_b2' : ']' ∉ n.map Char.toLower := not_mem_map_toLower (by decide) hn_b2
  have hn_u2 : ∀ c ∈ n.map Char.toLower, isUnsafe c = false :=
    map_toLower_forall (fun _ h => isUnsafe_toLower h) hn_u
  have hs_h : '#' ∉ s := scheme_no_hash hs
  have hn_h : '#' ∉ n := not_mem_of_netlocEnd hn_delim (by decide)
  have hs_h2 : '#' ∉ s.map Char.toLower := not_mem_map_toLower (by decide) hs_h
  have hn_h2 : '#' ∉ n.map Char.toLower := not_mem_map_toLower (by decide) hn_h
  have hnil : ∀ c ∈ ([] : List Char), isUnsafe c = false := by
    intro c hc
    cases hc
  have hsplit1 : pyUrlsplit P (pyUrlunsplit ⟨s, n, p, q, f⟩) =
      some ⟨s.map Char.toLower, n, p, q, f⟩ :=
    split_of_unsplit P s n p q f hs hn_delim hn_ascii hn_b1 hn_b2 hn_u hp hp_h hp_q hp_u
      hq_h hq_u hf_u hn_ne
  have hparse1 : pyUrlparse P (pyUrlunsplit ⟨s, n, p, q, f⟩) =
      some ⟨s.map Char.toLower, n, p, [], q, f⟩ :=
    pyUrlparse_no_params hsplit1 hp_sc
  have hsplitD : pyUrlsplit P (pyUrlunsplit ⟨s.map Char.toLower, n, p, q, []⟩) =
      some ⟨(s.map Char.toLower).map Char.toLower, n, p, q, []⟩ :=
    split_of_unsplit P _ n p q [] hs2 hn_delim hn_ascii hn_b1 hn_b2 hn_u hp hp_h hp_q hp_u
      hq_h hq_u hnil hn_ne
  rw [map_toLower_idem] at hsplitD
  have hparseD : pyUrlparse P (pyUrlunsplit ⟨s.map Char.toLower, n, p, q, []⟩) =
      some ⟨s.map Char.toLower, n, p, [], q, []⟩ :=
    pyUrlparse_no_params hsplitD hp_sc
  have hcanon1 : canonL P (pyUrlunsplit ⟨s, n, p, q, f⟩) =
      some (pyUrlunsplit ⟨s.map Char.toLower, n.map Char.toLower, p, q, []⟩) := by
    by_cases hf : f = []
    · subst hf
      have hdc : defragged P (pyUrlunsplit ⟨s, n, p, q, []⟩) =
          some (pyUrlunsplit ⟨s, n, p, q, []⟩) :=
        defragged_no_hash (unsplit_no_hash s n p q hp hn_ne hs_h hn_h hp_h hq_h)
      rw [canonL_eval hdc hparse1, unparse_no_params, map_toLower_idem]
    · have hcη : (pyUrlunsplit ⟨s, n, p, q, f⟩).contains '#' = true := by
        rw [unsplit_eq s n p q f hp (Or.inl hn_ne), contains_iff_mem, if_neg hf]
        exact List.mem_append.mpr (Or.inr (List.mem_cons_self _ _))
      have hdefrag : defragged P (pyUrlunsplit ⟨s, n, p, q, f⟩) =
          some (pyUrlunparse ⟨s.map Char.toLower, n, p, [], q, []⟩) :=
        defragged_hash hcη hparse1
      rw [unparse_no_params] at hdefrag
      rw [canonL_eval hdefrag hparseD, unparse_no_params, map_toLower_idem]
  have hsplitV : pyUrlsplit P (pyUrlunsplit ⟨s.map Char.toLower, n.map Char.toLower, p, q, []⟩) =
      some ⟨s.map Char.toLower, n.map Char.toLower, p, q, []⟩ := by
    have h := split_of_unsplit P (s.map Char.toLower) (n.map Char.toLower) p q [] hs2
      hn_delim2 hn_ascii2 hn_b1' hn_b2' hn_u2 hp hp_h hp_q hp_u hq_h hq_u hnil hn_ne2
    rw [map_toLower_idem] at h
    exact h
  have hparseV : pyUrlparse P (pyUrlunsplit ⟨s.map Char.toLower, n.map Char.toLower, p, q, []⟩) =
      some ⟨s.map Char.toLower, n.map Char.toLower, p, [], q, []⟩ :=
    pyUrlparse_no_params hsplitV hp_sc
  have hcanonV : canonL P (pyUrlunsplit ⟨s.map Char.toLower, n.map Char.toLower, p, q, []⟩) =
      some (pyUrlunsplit ⟨s.map Char.toLower, n.map Char.toLower, p, q, []⟩) := by
    have hdV : defragged P (pyUrlunsplit ⟨s.map Char.toLower, n.map Char.toLower, p, q, []⟩) =
        some (pyUrlunsplit ⟨s.map Char.toLower, n.map Char.toLower, p, q, []⟩) :=
      defragged_no_hash (unsplit_no_hash _ _ p q hp hn_ne2 hs_h2 hn_h2 hp_h hq_h)
    rw [canonL_eval hdV hparseV, unparse_no_params, map_toLower_idem, map_toLower_idem]
  refine ⟨hcanon1, ?_⟩
  rw [hcanon1]
  exact hcanonV

/-- C6 counterexample to the claimed unconditional idempotence: on
`"////X"` the first parse finds an empty netloc and path `"//X"`, so the
re-assembled `canon` output `"//X"` is re-parsed with netloc `"X"`, which a
second `canon` pass lower-cases to `"//x"`: `canon (canon u) ≠ canon u`. -/
theorem c6_counterexample :
    canon P0 "////X" = some "//X" ∧ canon P0 "//X" = some "//x" ∧
    (canon P0 "////X").bind (canon P0) ≠ canon P0 "////X" := by
  decide

/-- Concrete instance of the amended C6 theorem: the spec's own example
`HTTP://Example.com/x#frag` canonicalizes to `http://example.com/x` and a
second `canon` is the identity there. -/
theorem c6_witness :
    canonL P0 (pyUrlunsplit ⟨"HTTP".toList, "Example.com".toList, "/x".toList, [],
        "frag".toList⟩) =
      some (pyUrlunsplit ⟨"HTTP".toList.map Char.toLower,
        "Example.com".toList.map Char.toLower, "/x".toList, [], []⟩) ∧
    (canonL P0 (pyUrlunsplit ⟨"HTTP".toList, "Example.com".toList, "/x".toList, [],
        "frag".toList⟩)).bind (canonL P0) =
      canonL P0 (pyUrlunsplit ⟨"HTTP".toList, "Example.com".toList, "/x".toList, [],
        "frag".toList⟩) :=
  c6_canon_idempotent_no_collapse P0 "HTTP".toList "Example.com".toList "/x".toList []
    "frag".toList
    (by decide) (by decide) (by decide) (by decide) (by decide) (by decide) (by decide)
    (Or.inr ⟨"x".toList, by decide⟩) (by decide) (by decide) (by decide) (by decide)
    (by decide) (by decide) (by decide)

end WindCrawler
